import Mathlib

/-!
Verification of the MidgardMap core logic: the graph data model
(`createGraph.py`, `graph_editor.py`), the Dijkstra routing engine and the
trip simulator (`travel_gui.py`).

Conventions of the shallow embedding:
* Python floats are modelled as rationals (`ℚ`); every arithmetic operation
  used by the code (`+`, `*`, `min`, `max`, comparisons, `math.isclose`) is
  exact on `ℚ`.
* Python dicts are modelled as association lists with insertion-order
  semantics: writing to an existing key replaces the value in place, writing
  a fresh key appends.  Bags are compared by lookup, mirroring the
  spec's "ignoring key ordering".
* JSON-ish attribute values are modelled by the inductive `Val`.  Python's
  `float(x)` coercion is modelled by `pyFloat`; it succeeds on numbers and
  booleans and fails otherwise (`none` models the `TypeError`/`ValueError`
  raised by CPython; the coercion of numeric strings such as `"1.5"` is not
  modelled, and no theorem below depends on string-encoded numbers).
* Functions that can raise return `Option`/`Except`; `none`/`.error` models
  the raised exception (and, for the fuelled Dijkstra loop, exhaustion of
  fuel models divergence of the underlying `while` loop).
-/

namespace Midgard

/-- JSON-like attribute values stored in node and edge attribute bags. -/
inductive Val where
  | str (s : String)
  | num (q : ℚ)
  | bool (b : Bool)
  | list (xs : List Val)
deriving Repr

/-- Boolean equality test on attribute values. -/
def Val.beq : Val → Val → Bool
  | .str a, .str b => a == b
  | .num a, .num b => a == b
  | .bool a, .bool b => a == b
  | .list [], .list [] => true
  | .list (x :: xs), .list (y :: ys) => Val.beq x y && Val.beq (.list xs) (.list ys)
  | _, _ => false

instance : DecidableEq Val := fun a b =>
  decidable_of_iff (Val.beq a b = true) (by
    have key : ∀ (n : ℕ) (a b : Val), sizeOf a ≤ n →
        ((Val.beq a b = true) ↔ a = b) := by
      intro n
      induction n with
      | zero => intro a b ha; cases a <;> simp at ha
      | succ n ih =>
        intro a b ha
        cases a with
        | str s => cases b <;> simp [Val.beq]
        | num q => cases b <;> simp [Val.beq]
        | bool c => cases b <;> simp [Val.beq]
        | list xs =>
          have hlist : ∀ (xs : List Val), sizeOf (Val.list xs) ≤ n + 1 →
              ∀ (ys : List Val),
              (Val.beq (.list xs) (.list ys) = true) ↔ Val.list xs = Val.list ys := by
            intro xs
            induction xs with
            | nil => intro _ ys; cases ys <;> simp [Val.beq]
            | cons x xs ihtail =>
              intro hsz ys
              have h₁ : sizeOf (Val.list (x :: xs)) =
                  1 + (1 + sizeOf x + sizeOf xs) := by simp
              have h₂ : sizeOf (Val.list xs) = 1 + sizeOf xs := by simp
              cases ys with
              | nil => simp [Val.beq]
              | cons y ys =>
                have hx : (Val.beq x y = true) ↔ x = y := ih x y (by omega)
                have ht := ihtail (by omega) ys
                simp only [Val.beq, Bool.and_eq_true, hx, ht, Val.list.injEq,
                  List.cons.injEq]
          cases b with
          | str s => simp [Val.beq]
          | num q => simp [Val.beq]
          | bool c => simp [Val.beq]
          | list ys => exact hlist xs ha ys
    exact key (sizeOf a) a b le_rfl)

/-- A Python dict with string keys, as an insertion-ordered association list. -/
abbrev Dict (β : Type) := List (String × β)

/-- An attribute bag: a dict of `Val`s. -/
abbrev AttrBag := Dict Val

/-- First-match lookup (keys are unique in every dict the code builds). -/
def dlookup {β : Type} : Dict β → String → Option β
  | [], _ => none
  | (k', v) :: rest, k => if k' = k then some v else dlookup rest k

/-- `d[k] = v`: replace in place if the key exists, else append. -/
def dinsert {β : Type} : Dict β → String → β → Dict β
  | [], k, v => [(k, v)]
  | (k', v') :: rest, k, v =>
      if k' = k then (k, v) :: rest else (k', v') :: dinsert rest k v

/-- `d.update(new)`: left-to-right sequence of writes. -/
def dupdate {β : Type} (d new : Dict β) : Dict β :=
  new.foldl (fun acc p => dinsert acc p.1 p.2) d

/-- `del d[k]` (total: no-op when the key is absent). -/
def dremove {β : Type} (d : Dict β) (k : String) : Dict β :=
  d.filter (fun p => p.1 ≠ k)

/-- The list of keys of a dict. -/
def dkeys {β : Type} (d : Dict β) : List String := d.map Prod.fst

/-- `k in d`. -/
def dmem {β : Type} (d : Dict β) (k : String) : Bool := (dlookup d k).isSome

/-- Two bags are equivalent when every key looks up to the same value
("identical attribute bags, ignoring key ordering"). -/
def bagEquiv {β : Type} (d₁ d₂ : Dict β) : Prop :=
  ∀ k, dlookup d₁ k = dlookup d₂ k

/-- Executable check for `bagEquiv` (used on concrete instances). -/
def bagEquivB (d₁ d₂ : AttrBag) : Bool :=
  (dkeys d₁ ++ dkeys d₂).all (fun k => decide (dlookup d₁ k = dlookup d₂ k))

/-- Python's `float(x)` on an attribute value: numbers and booleans convert,
everything else raises (modelled as `none`). -/
def pyFloat : Val → Option ℚ
  | .num q => some q
  | .bool b => some (if b then 1 else 0)
  | _ => none

/-! ### travel_gui.py: lookup tables and difficulty resolution -/

/-- `SPEEDS_KMH`. -/
def SPEEDS_KMH : Dict ℚ :=
  [("foot", 4.5), ("horse", 7.0), ("wagon", 5.0), ("pack_lizard", 6.0),
   ("barge", 6.0), ("river_boat", 9.0), ("row", 5.5), ("sail", 12.0),
   ("knarr", 10.0)]

/-- `ROUTE_DIFFICULTY`. -/
def ROUTE_DIFFICULTY : Dict ℚ :=
  [("road", 1.0), ("trail", 0.85), ("mountain_pass", 0.7),
   ("shore", 1.0), ("sea", 1.0)]

/-- `speed_for_mode`: table lookup with walking speed as default. -/
def speed_for_mode (mode : String) : ℚ :=
  (dlookup SPEEDS_KMH mode).getD 4.5

/-- `difficulty_for_edge`: explicit `difficulty_factor`, else
`difficulty_modifier`, else the `ROUTE_DIFFICULTY` table keyed by
`route_type` with default `1.0`.  `none` models the exception raised when
`float()` is applied to a non-numeric attribute value. -/
def difficulty_for_edge (attrs : AttrBag) : Option ℚ :=
  match dlookup attrs "difficulty_factor" with
  | some v => pyFloat v
  | none =>
    match dlookup attrs "difficulty_modifier" with
    | some v => pyFloat v
    | none =>
      some (match dlookup attrs "route_type" with
        | some (.str rt) => (dlookup ROUTE_DIFFICULTY rt).getD 1
        | _ => 1)

/-- `attrs.get("approx_distance_km", 0.0)`. -/
def edgeBase (attrs : AttrBag) : Val :=
  (dlookup attrs "approx_distance_km").getD (.num 0)

/-- The traversal cost `base * difficulty_for_edge(attrs)` used by the
router; `none` models the exception raised on non-numeric attributes. -/
def entryWeight (attrs : AttrBag) : Option ℚ := do
  let b ← pyFloat (edgeBase attrs)
  let d ← difficulty_for_edge attrs
  pure (b * d)

/-! ### travel_gui.py: the trip simulator -/

/-- The adjacency view produced by `prepare_graph`:
node id ↦ list of (neighbor, edge attribute bag). -/
abbrev Adj := Dict (List (String × AttrBag))

/-- `adjacency.get(node, [])`. -/
def adjGet (adj : Adj) (u : String) : List (String × AttrBag) :=
  (dlookup adj u).getD []

/-- Structured counterpart of the human-readable strings appended to
`self.log`; each constructor records the information content of the
corresponding `str.format` call (the decimal rendering itself is not
modelled). -/
inductive LogEntry where
  | tripBegins (start destination : String)
  | departed (origin destination : String) (distance : ℚ) (route : Val)
  | dayLine (day : ℕ) (mode : String) (hours speed difficulty covered : ℚ)
  | arrived (city : String)
deriving DecidableEq, Repr

/-- `ActiveLeg` dataclass. -/
structure ActiveLeg where
  origin : String
  destination : String
  attrs : AttrBag
  distance_km : ℚ
  traveled_km : ℚ
deriving DecidableEq, Repr

/-- `ActiveLeg.remaining_km` property. -/
def ActiveLeg.remaining_km (leg : ActiveLeg) : ℚ :=
  max 0 (leg.distance_km - leg.traveled_km)

/-- `TravelSession` state. -/
structure TravelSession where
  nodes : Dict AttrBag
  adjacency : Adj
  start_city : Option String
  destination_city : Option String
  current_city : Option String
  active_leg : Option ActiveLeg
  day : ℕ
  total_traveled_km : ℚ
  log : List LogEntry
deriving DecidableEq, Repr

/-- `TravelSession.__init__`. -/
def TravelSession.init (nodes : Dict AttrBag) (adjacency : Adj) : TravelSession :=
  { nodes := nodes, adjacency := adjacency, start_city := none,
    destination_city := none, current_city := none, active_leg := none,
    day := 0, total_traveled_km := 0, log := [] }

/-- The typed failures raised by the simulator (Python raises
`RuntimeError`/`ValueError`/`TypeError` with messages; the spec names them
as below).  `badValue` stands for the `ValueError`/`TypeError` raised when
`float()` or an arithmetic operation meets a malformed attribute value. -/
inductive SimError where
  | unknownNode
  | alreadyTraveling
  | sameLocation
  | noSuchRoute
  | noActiveLeg
  | nonPositiveHours
  | badValue
deriving DecidableEq, Repr

/-- Failures carry the session state as it is left after the raise, so that
atomicity of failures is expressible (Python mutates `self` in place). -/
abbrev SimResult (α : Type) := Except (SimError × TravelSession) α

/-- `TravelSession.reset_trip`. -/
def TravelSession.reset_trip (s : TravelSession) (start destination : String) :
    SimResult TravelSession :=
  if ¬ (dmem s.nodes start) ∨ ¬ (dmem s.nodes destination) then
    .error (.unknownNode, s)
  else
    .ok { s with
      start_city := some start,
      destination_city := some destination,
      current_city := some start,
      active_leg := none,
      day := 0,
      total_traveled_km := 0,
      log := [.tripBegins start destination] }

/-- `TravelSession.available_routes` (`if not self.current_city` treats both
`None` and the empty string as falsy). -/
def TravelSession.available_routes (s : TravelSession) : List (String × AttrBag) :=
  match s.current_city with
  | none => []
  | some c => if c = "" then [] else adjGet s.adjacency c

/-- The dict comprehension `{neighbor: attrs for neighbor, attrs in
self.available_routes()}` (a later duplicate neighbor overwrites an earlier
one). -/
def TravelSession.routesDict (s : TravelSession) : Dict AttrBag :=
  s.available_routes.foldl (fun d p => dinsert d p.1 p.2) []

/-- `TravelSession.start_leg`.  The `origin := s.current_city.getD ""`
default is unreachable: a successful route lookup forces a non-falsy
current city. -/
def TravelSession.start_leg (s : TravelSession) (destination : String) :
    SimResult (TravelSession × ActiveLeg) :=
  if s.active_leg.isSome then .error (.alreadyTraveling, s)
  else if some destination = s.current_city then .error (.sameLocation, s)
  else
    match dlookup s.routesDict destination with
    | none => .error (.noSuchRoute, s)
    | some attrs =>
      match pyFloat (edgeBase attrs) with
      | none => .error (.badValue, s)
      | some distance_km =>
        let origin := s.current_city.getD ""
        let leg : ActiveLeg :=
          { origin := origin, destination := destination, attrs := attrs,
            distance_km := distance_km, traveled_km := 0 }
        .ok ({ s with
          active_leg := some leg,
          log := s.log ++ [.departed origin destination distance_km
            ((dlookup attrs "route_type").getD (.str "route"))] }, leg)

/-- `math.isclose` with its default tolerances
(`rel_tol = 1e-9`, `abs_tol = 0.0`), exact on `ℚ`. -/
def isclose (a b : ℚ) : Bool :=
  decide (|a - b| ≤ max ((1 / 1000000000) * max |a| |b|) 0)

/-- The result record returned by `travel_day`. -/
structure DayResult where
  day : ℕ
  traveled_km : ℚ
  remaining_leg_km : ℚ
  at_city : Option String
  reached_destination : Bool
deriving DecidableEq, Repr

/-- `TravelSession.travel_day`.  Note that `self.day += 1` happens before
the difficulty lookup, so a `badValue` failure leaves the incremented day
behind — exactly as in the source. -/
def TravelSession.travel_day (s : TravelSession) (mode : String) (hours : ℚ) :
    SimResult (TravelSession × DayResult) :=
  match s.active_leg with
  | none => .error (.noActiveLeg, s)
  | some leg =>
    if hours ≤ 0 then .error (.nonPositiveHours, s)
    else
      let s₁ := { s with day := s.day + 1 }
      let speed := speed_for_mode mode
      match difficulty_for_edge leg.attrs with
      | none => .error (.badValue, s₁)
      | some difficulty =>
        let potential_km := speed * hours * difficulty
        let remaining := leg.remaining_km
        let traveled := min potential_km remaining
        let leg' : ActiveLeg := { leg with traveled_km := leg.traveled_km + traveled }
        let s₂ := { s₁ with
          active_leg := some leg',
          total_traveled_km := s₁.total_traveled_km + traveled }
        let reached :=
          isclose leg'.traveled_km leg'.distance_km
            || decide (leg'.traveled_km ≥ leg'.distance_km)
        let s₃ := { s₂ with
          log := s₂.log ++ [.dayLine s₂.day mode hours speed difficulty traveled] }
        if reached then
          let s₄ := { s₃ with
            current_city := some leg.destination,
            log := s₃.log ++ [.arrived leg.destination],
            active_leg := none }
          .ok (s₄, { day := s₄.day, traveled_km := traveled, remaining_leg_km := 0,
                     at_city := s₄.current_city, reached_destination := true })
        else
          .ok (s₃, { day := s₃.day, traveled_km := traveled,
                     remaining_leg_km := leg'.remaining_km,
                     at_city := s₃.current_city, reached_destination := false })

/-! ### travel_gui.py: shortest_path (Dijkstra)

The `while heap:` loop is embedded with explicit fuel: `none` models a run
that raises or diverges, `some` a normal exit (break at the destination or
an empty heap).  `heapq` maintains a multiset of `(cost, node)` tuples and
`heappop` returns a minimal one in lexicographic tuple order; the heap is
modelled as a plain list with a minimum-extracting pop. -/

/-- The evolving state of the Dijkstra loop. -/
structure DState where
  dist : Dict ℚ
  prev : Dict String
  heap : List (ℚ × String)
deriving DecidableEq, Repr

/-- Lexicographic order on `(cost, node)` tuples (Python tuple `<=`). -/
def entryLe (e₁ e₂ : ℚ × String) : Bool :=
  decide (e₁.1 < e₂.1) || (decide (e₁.1 = e₂.1) && decide (e₁.2 ≤ e₂.2))

/-- A minimal entry of the heap. -/
def heapMin : List (ℚ × String) → Option (ℚ × String)
  | [] => none
  | e :: rest =>
    match heapMin rest with
    | none => some e
    | some m => some (if entryLe e m then e else m)

/-- Remove one occurrence of an entry. -/
def removeFirst : List (ℚ × String) → (ℚ × String) → List (ℚ × String)
  | [], _ => []
  | e :: rest, x => if e = x then rest else e :: removeFirst rest x

/-- `heappop`: extract a minimal entry. -/
def heapPop (h : List (ℚ × String)) : Option ((ℚ × String) × List (ℚ × String)) :=
  match heapMin h with
  | none => none
  | some m => some (m, removeFirst h m)

/-- One step of the inner `for neigh, attrs in adjacency.get(node, [])`
loop: relax the edge `u → e.1` from cost `c`. -/
def relaxOne (c : ℚ) (u : String) (st : DState) (e : String × AttrBag) :
    Option DState :=
  match entryWeight e.2 with
  | none => none
  | some w =>
    let nc := c + w
    let better :=
      match dlookup st.dist e.1 with
      | none => true
      | some dv => decide (nc < dv)
    if better then
      some { dist := dinsert st.dist e.1 nc,
             prev := dinsert st.prev e.1 u,
             heap := (nc, e.1) :: st.heap }
    else some st

/-- The whole inner relaxation loop. -/
def relaxAll (c : ℚ) (u : String) (st : DState) :
    List (String × AttrBag) → Option DState
  | [] => some st
  | e :: rest =>
    match relaxOne c u st e with
    | none => none
    | some st' => relaxAll c u st' rest

/-- The fuelled `while heap:` loop: pop a minimal entry, break at the
destination, skip stale entries (`cost > dist.get(node, inf)`), otherwise
relax all outgoing edges. -/
def dloop (adj : Adj) (dest : String) : ℕ → DState → Option DState
  | 0, _ => none
  | fuel + 1, st =>
    match heapPop st.heap with
    | none => some st
    | some ((c, u), h') =>
      if u = dest then some { st with heap := h' }
      else
        let stale :=
          match dlookup st.dist u with
          | none => false
          | some du => decide (du < c)
        if stale then dloop adj dest fuel { st with heap := h' }
        else
          match relaxAll c u { st with heap := h' } (adjGet adj u) with
          | none => none
          | some st' => dloop adj dest fuel st'

/-- The physical distance the reconstruction adds for the step `p → c`: the
base distance of the first adjacency entry of `p` matching `c` (nothing is
added when no entry matches). -/
def stepBase (adj : Adj) (p c : String) : Option ℚ :=
  match (adjGet adj p).find? (fun e => e.1 == c) with
  | none => some 0
  | some e => pyFloat ((dlookup e.2 "approx_distance_km").getD (.num 0))

/-- The `while cur != start:` reconstruction loop, walking `prev` back from
the destination and summing unweighted base distances.  The fuel
`prev.length + 1` used by `shortest_path` is exhausted exactly when the
`prev` chain never reaches `start` (i.e. when the Python loop diverges). -/
def reconstruct (adj : Adj) (start : String) (prev : Dict String) :
    ℕ → String → List String → ℚ → Option (List String × ℚ)
  | 0, _, _, _ => none
  | fuel + 1, cur, acc, total =>
    if cur = start then some (start :: acc, total)
    else
      match dlookup prev cur with
      | none => none
      | some p =>
        match stepBase adj p cur with
        | none => none
        | some b => reconstruct adj start prev fuel p (cur :: acc) (total + b)

/-- `shortest_path(adjacency, start, dest)`; returns
`(path nodes, total physical distance, weighted cost)`.  `none` of the
`start`/`dest` options models Python `None`; the falsy empty string is
handled like the source's `if not start or not dest`. -/
def shortest_path (adj : Adj) (start dest : Option String) (fuel : ℕ) :
    Option (List String × ℚ × ℚ) :=
  match start, dest with
  | some s, some d =>
    if s = "" ∨ d = "" then some ([], 0, 0)
    else if s = d then some ([s], 0, 0)
    else
      match dloop adj d fuel { dist := [(s, 0)], prev := [], heap := [(0, s)] } with
      | none => none
      | some st =>
        match dlookup st.dist d with
        | none => some ([], 0, 0)
        | some dd =>
          match reconstruct adj s st.prev (st.prev.length + 1) d [] 0 with
          | none => none
          | some (path, total) => some (path, total, dd)
  | _, _ => some ([], 0, 0)

/-- There is a walk from `u` to `x` in the adjacency view whose traversal
costs (base distance × difficulty, per edge entry) sum to `c`. -/
inductive WalkFrom (adj : Adj) : String → String → ℚ → Prop
  | nil (u : String) : WalkFrom adj u u 0
  | cons {u v x : String} {attrs : AttrBag} {w c : ℚ}
      (he : (v, attrs) ∈ adjGet adj u) (hw : entryWeight attrs = some w)
      (hrest : WalkFrom adj v x c) : WalkFrom adj u x (w + c)

/-- Consecutive nodes of the list are adjacent in the view. -/
def IsWalkPath (adj : Adj) : List String → Prop
  | [] => True
  | [_] => True
  | u :: v :: rest => (∃ attrs, (v, attrs) ∈ adjGet adj u) ∧ IsWalkPath adj (v :: rest)

/-- The unweighted physical distance along a node list, summing for each
consecutive pair the base distance of the first matching adjacency entry —
the quantity the reconstruction loop reports. -/
def physOfPath (adj : Adj) : List String → Option ℚ
  | [] => some 0
  | [_] => some 0
  | u :: v :: rest => do
    let b ← stepBase adj u v
    let r ← physOfPath adj (v :: rest)
    pure (b + r)

/-- Executable wellformedness of an adjacency view: every edge entry has a
numeric nonnegative base distance and resolves to a nonnegative numeric
difficulty.  (The spec's data model fixes distances to be nonnegative reals
and §4.2 requires all routing weights to be nonnegative.) -/
def wfAdjB (adj : Adj) : Bool :=
  adj.all (fun p => p.2.all (fun e =>
    (match pyFloat (edgeBase e.2) with
     | some b => decide (0 ≤ b)
     | none => false) &&
    (match difficulty_for_edge e.2 with
     | some d => decide (0 ≤ d)
     | none => false)))

/-- A backwards `prev`-pointer chain `[v, prev v, prev (prev v), …, s]`
from `v` to the start node, as the reconstruction loop walks it. -/
inductive PrevListChain (prev : Dict String) (s : String) : String → List String → Prop
  | base : PrevListChain prev s s [s]
  | step {v p : String} {C : List String} :
      dlookup prev v = some p → PrevListChain prev s p C →
      PrevListChain prev s v (v :: C)

/-- The loop invariant of the Dijkstra `while heap:` loop, relative to a
ghost set `S` of settled nodes: heap entries are sound walk costs backed
by a no-larger tentative distance; tentative distances are sound
nonnegative walk costs; the start stays at distance zero; unsettled nodes
with a tentative distance keep a heap entry at exactly that cost; settled
nodes carry minimal distances and are fully relaxed; the `prev` map never
binds the start, binds along real edges, reaches the start from every key,
has unique keys, is distance-monotone, and covers every distance key
except the start. -/
structure DInv (adj : Adj) (s : String) (S : Finset String) (st : DState) :
    Prop where
  hW1 : ∀ c u, (c, u) ∈ st.heap →
      WalkFrom adj s u c ∧ ∃ du, dlookup st.dist u = some du ∧ du ≤ c
  hW2 : ∀ x dx, dlookup st.dist x = some dx → WalkFrom adj s x dx ∧ 0 ≤ dx
  hW5 : dlookup st.dist s = some 0
  hW4 : ∀ x dx, x ∉ S → dlookup st.dist x = some dx → (dx, x) ∈ st.heap
  hW3 : ∀ u ∈ S, ∃ du, dlookup st.dist u = some du ∧
      (∀ c, WalkFrom adj s u c → du ≤ c) ∧
      (∀ e ∈ adjGet adj u, ∀ w, entryWeight e.2 = some w →
        ∃ dv, dlookup st.dist e.1 = some dv ∧ dv ≤ du + w)
  hP0 : dlookup st.prev s = none
  hP1 : ∀ v p, dlookup st.prev v = some p → ∃ attrs, (v, attrs) ∈ adjGet adj p
  hP2 : ∀ v, v ∈ dkeys st.prev → ∃ C, PrevListChain st.prev s v C
  hP3 : (dkeys st.prev).Nodup
  hP4 : ∀ v p, dlookup st.prev v = some p → ∃ dv dp,
      dlookup st.dist v = some dv ∧ dlookup st.dist p = some dp ∧ dp ≤ dv
  hP5 : ∀ x, x ∈ dkeys st.dist → x = s ∨ x ∈ dkeys st.prev

/-- The invariant holding while the inner relaxation loop processes the
popped node `u` (whose entry cost `c` equals its tentative distance): the
heap-coverage clause exempts `u`, whose exact-cost entry was just
consumed, and `u` carries its walk and minimality facts. -/
structure DRelaxInv (adj : Adj) (s : String) (S : Finset String) (u : String)
    (c : ℚ) (st : DState) : Prop where
  hW1 : ∀ c' u', (c', u') ∈ st.heap →
      WalkFrom adj s u' c' ∧ ∃ du, dlookup st.dist u' = some du ∧ du ≤ c'
  hW2 : ∀ x dx, dlookup st.dist x = some dx → WalkFrom adj s x dx ∧ 0 ≤ dx
  hW5 : dlookup st.dist s = some 0
  hW4 : ∀ x dx, x ∉ S → x ≠ u → dlookup st.dist x = some dx →
      (dx, x) ∈ st.heap
  hW3 : ∀ u' ∈ S, ∃ du, dlookup st.dist u' = some du ∧
      (∀ c', WalkFrom adj s u' c' → du ≤ c') ∧
      (∀ e ∈ adjGet adj u', ∀ w, entryWeight e.2 = some w →
        ∃ dv, dlookup st.dist e.1 = some dv ∧ dv ≤ du + w)
  hP0 : dlookup st.prev s = none
  hP1 : ∀ v p, dlookup st.prev v = some p → ∃ attrs, (v, attrs) ∈ adjGet adj p
  hP2 : ∀ v, v ∈ dkeys st.prev → ∃ C, PrevListChain st.prev s v C
  hP3 : (dkeys st.prev).Nodup
  hP4 : ∀ v p, dlookup st.prev v = some p → ∃ dv dp,
      dlookup st.dist v = some dv ∧ dlookup st.dist p = some dp ∧ dp ≤ dv
  hP5 : ∀ x, x ∈ dkeys st.dist → x = s ∨ x ∈ dkeys st.prev
  hU : dlookup st.dist u = some c
  hUwalk : WalkFrom adj s u c
  hUmin : ∀ cw, WalkFrom adj s u cw → c ≤ cw
  hUS : u ∉ S

/-- What holds of the state in which the Dijkstra loop halts: sound
distances, a reconstructible `prev` map, and a minimal finite distance for
the destination whenever any walk reaches it. -/
def DPost (adj : Adj) (s d : String) (stf : DState) : Prop :=
  (∀ x dx, dlookup stf.dist x = some dx → WalkFrom adj s x dx) ∧
  dlookup stf.prev s = none ∧
  (∀ v p, dlookup stf.prev v = some p → ∃ attrs, (v, attrs) ∈ adjGet adj p) ∧
  (∀ v, v ∈ dkeys stf.prev → ∃ C, PrevListChain stf.prev s v C) ∧
  (dkeys stf.prev).Nodup ∧
  (∀ x, x ∈ dkeys stf.dist → x = s ∨ x ∈ dkeys stf.prev) ∧
  (∀ cw, WalkFrom adj s d cw → ∃ dd, dlookup stf.dist d = some dd ∧ dd ≤ cw)

/-- Sessions reachable from a fresh `TravelSession` over a wellformed
adjacency view by successful simulator operations. -/
inductive ReachableSession : TravelSession → Prop
  | init (nodes : Dict AttrBag) (adj : Adj) :
      wfAdjB adj = true → ReachableSession (TravelSession.init nodes adj)
  | reset {s s' : TravelSession} (a b : String) :
      ReachableSession s → s.reset_trip a b = .ok s' → ReachableSession s'
  | start {s s' : TravelSession} {leg : ActiveLeg} (d : String) :
      ReachableSession s → s.start_leg d = .ok (s', leg) → ReachableSession s'
  | travel {s s' : TravelSession} {res : DayResult} (mode : String) (hours : ℚ) :
      ReachableSession s → s.travel_day mode hours = .ok (s', res) →
      ReachableSession s'

/-! ### Shared: canonical (sorted) node pairs -/

/-- `tuple(sorted((a, b)))` for two strings. -/
def sortPair (a b : String) : String × String :=
  if a ≤ b then (a, b) else (b, a)

/-! ### createGraph.py: the `Graph` class -/

namespace CreateGraph

/-- `createGraph.Graph`: a nodes dict and an undirected-edges dict keyed by
the sorted node pair. -/
structure Graph where
  nodes : Dict AttrBag
  edges : List ((String × String) × AttrBag)
deriving DecidableEq, Repr

/-- The empty graph built by `Graph.__init__`. -/
def Graph.empty : Graph := { nodes := [], edges := [] }

/-- Lookup in the pair-keyed edge dict. -/
def elookup : List ((String × String) × AttrBag) → (String × String) → Option AttrBag
  | [], _ => none
  | (k', v) :: rest, k => if k' = k then some v else elookup rest k

/-- Write to the pair-keyed edge dict (replace in place or append). -/
def einsert : List ((String × String) × AttrBag) → (String × String) → AttrBag →
    List ((String × String) × AttrBag)
  | [], k, v => [(k, v)]
  | (k', v') :: rest, k, v =>
      if k' = k then (k, v) :: rest else (k', v') :: einsert rest k v

/-- Failures of the graph model (`ValueError`s in the source; `badDoc`
additionally flags document shapes whose Python behaviour — non-string node
identifiers or non-string edge endpoints — cannot be represented in this
string-keyed model; no document produced by `to_dict` has such a shape). -/
inductive GraphError where
  | missingEndpoint
  | malformedEdge
  | badDoc
deriving DecidableEq, Repr

/-- `Graph.add_node`: insert or merge the attribute payload
`{"id": node_id, **attrs}`. -/
def Graph.add_node (g : Graph) (node_id : String) (attrs : AttrBag) : Graph :=
  let payload := dupdate [("id", Val.str node_id)] attrs
  match dlookup g.nodes node_id with
  | some existing =>
      { g with nodes := dinsert g.nodes node_id (dupdate existing payload) }
  | none => { g with nodes := dinsert g.nodes node_id payload }

/-- `Graph.add_edge`: both endpoints must already be nodes; the pair is
canonicalized by sorting and the payload is merged into any existing edge. -/
def Graph.add_edge (g : Graph) (source target : String) (attrs : AttrBag) :
    Except GraphError Graph :=
  if ¬ (dmem g.nodes source) ∨ ¬ (dmem g.nodes target) then
    .error .missingEndpoint
  else
    let key := sortPair source target
    let edge_payload :=
      dupdate [("nodes", Val.list [.str key.1, .str key.2]),
               ("undirected", Val.bool true)] attrs
    match elookup g.edges key with
    | some existing =>
        .ok { g with edges := einsert g.edges key (dupdate existing edge_payload) }
    | none => .ok { g with edges := einsert g.edges key edge_payload }

/-- The JSON document produced by `Graph.to_dict` / consumed by
`Graph.from_dict`. -/
structure Doc where
  nodes : List AttrBag
  edges : List AttrBag
deriving DecidableEq, Repr

/-- `sorted` over strings as a Boolean relation for `mergeSort`. -/
def strLe (a b : String) : Bool := decide (a ≤ b)

/-- `sorted` over string pairs (Python tuple order). -/
def pairLe (p q : String × String) : Bool :=
  decide (p.1 < q.1) || (decide (p.1 = q.1) && decide (p.2 ≤ q.2))

/-- `Graph.to_dict`: node bags in sorted key order, edge bags in sorted
pair-key order. -/
def Graph.to_dict (g : Graph) : Doc :=
  { nodes := ((dkeys g.nodes).mergeSort strLe).map
      (fun k => (dlookup g.nodes k).getD []),
    edges := ((g.edges.map Prod.fst).mergeSort pairLe).map
      (fun k => (elookup g.edges k).getD []) }

/-- Endpoint extraction from a document edge: the `"nodes"` two-element list
form, else the `"source"`/`"target"` form, else `MalformedEdge`. -/
def edgeEndpoints (edge : AttrBag) : Except GraphError (String × String) :=
  match dlookup edge "nodes" with
  | some (.list [Val.str a, Val.str b]) => .ok (a, b)
  | some (.list [_, _]) => .error .badDoc
  | some (.list _) => edgeEndpointsAlt edge
  | some (.str s) => if s.length = 2 then .error .badDoc else edgeEndpointsAlt edge
  | some _ => .error .badDoc
  | none => edgeEndpointsAlt edge
where
  /-- The `"source"`/`"target"` fallback branch. -/
  edgeEndpointsAlt (edge : AttrBag) : Except GraphError (String × String) :=
    match dlookup edge "source", dlookup edge "target" with
    | some (.str a), some (.str b) => .ok (a, b)
    | some _, some _ => .error .badDoc
    | _, _ => .error .malformedEdge

/-- One step of `from_dict`'s node loop: `node_id = node["id"]`, then
`add_node(node_id, {k: v for k, v in node.items() if k != "id"})`. -/
def Graph.from_dict_node_step (g : Graph) (node : AttrBag) :
    Except GraphError Graph :=
  match dlookup node "id" with
  | some (Val.str node_id) => pure (g.add_node node_id (dremove node "id"))
  | some _ => throw GraphError.badDoc
  | none => throw GraphError.badDoc

/-- One step of `from_dict`'s edge loop: extract the endpoints, strip the
endpoint keys, `add_edge`. -/
def Graph.from_dict_edge_step (g : Graph) (edge : AttrBag) :
    Except GraphError Graph := do
  let (a, b) ← edgeEndpoints edge
  let attrs := dremove (dremove (dremove edge "nodes") "source") "target"
  g.add_edge a b attrs

/-- `Graph.from_dict`: re-add every node, then every edge. -/
def Graph.from_dict (doc : Doc) : Except GraphError Graph := do
  let g ← doc.nodes.foldlM Graph.from_dict_node_step Graph.empty
  doc.edges.foldlM Graph.from_dict_edge_step g

/-- Graphs built from (successful) `add_node`/`add_edge` operations. -/
inductive Built : Graph → Prop
  | empty : Built Graph.empty
  | addNode {g : Graph} (node_id : String) (attrs : AttrBag) :
      Built g → Built (g.add_node node_id attrs)
  | addEdge {g g' : Graph} (source target : String) (attrs : AttrBag) :
      Built g → g.add_edge source target attrs = .ok g' → Built g'

/-- Graphs built from `add_node`/`add_edge` operations whose attribute bags
avoid the payload's reserved keys: node attrs never rebind `"id"`, edge
attrs never rebind `"nodes"` and never contain `"source"`/`"target"` (the
`add_edge(self, source, target, **attrs)` keyword signature cannot accept
the latter two anyway — Python raises `TypeError: multiple values` for
them). -/
inductive BuiltTame : Graph → Prop
  | empty : BuiltTame Graph.empty
  | addNode {g : Graph} (node_id : String) (attrs : AttrBag) :
      dlookup attrs "id" = none → BuiltTame g →
      BuiltTame (g.add_node node_id attrs)
  | addEdge {g g' : Graph} (source target : String) (attrs : AttrBag) :
      dlookup attrs "nodes" = none → dlookup attrs "source" = none →
      dlookup attrs "target" = none → BuiltTame g →
      g.add_edge source target attrs = .ok g' → BuiltTame g'

/-- Option-level bag equivalence: both keys absent, or both present with
equivalent bags ("identical attribute bags, ignoring key ordering"). -/
def obagEquiv : Option AttrBag → Option AttrBag → Prop
  | some b₁, some b₂ => bagEquiv b₁ b₂
  | none, none => True
  | _, _ => False

/-- Structural invariants every tamely-built graph satisfies: unique node
and edge keys; each node bag carries `"id" = key` and has unique keys; each
edge bag sits under its sorted pair key, carries the canonical `"nodes"`
list, no `"source"`/`"target"` keys, an `"undirected"` key, has unique
keys, and both endpoints are nodes. -/
def GraphInv (g : Graph) : Prop :=
  (dkeys g.nodes).Nodup ∧
  (g.edges.map Prod.fst).Nodup ∧
  (∀ k bag, dlookup g.nodes k = some bag →
      dlookup bag "id" = some (Val.str k) ∧ (dkeys bag).Nodup) ∧
  (∀ a b bag, elookup g.edges (a, b) = some bag →
      a ≤ b ∧
      dlookup bag "nodes" = some (Val.list [Val.str a, Val.str b]) ∧
      dlookup bag "source" = none ∧
      dlookup bag "target" = none ∧
      (dlookup bag "undirected").isSome = true ∧
      (dkeys bag).Nodup ∧
      dmem g.nodes a = true ∧ dmem g.nodes b = true)

end CreateGraph

/-! ### graph_editor.py: the `GraphData` class -/

namespace GraphEditor

/-- `graph_editor.GraphData`: nodes dict (bags exclude the id) and a plain
list of edge bags, each carrying its endpoints under the `"nodes"` key. -/
structure GraphData where
  nodes : Dict AttrBag
  edges : List AttrBag
deriving DecidableEq, Repr

/-- `GraphData.add_node`. -/
def GraphData.add_node (g : GraphData) (node_id : String) (attrs : AttrBag) :
    GraphData :=
  { g with nodes := dinsert g.nodes node_id attrs }

/-- `node_id in e.get("nodes", [])`: membership in the endpoint list.  (For
a missing key Python tests membership in `[]`; list membership uses `==`.
The degenerate substring semantics of a string-valued `"nodes"` attribute is
not modelled — the loader and `upsert_edge` only ever store pair lists.) -/
def edgeMentions (e : AttrBag) (node_id : String) : Bool :=
  match dlookup e "nodes" with
  | some (.list xs) => decide (Val.str node_id ∈ xs)
  | _ => false

/-- `GraphData.remove_node`: drop the node and filter out every edge whose
endpoint list mentions it. -/
def GraphData.remove_node (g : GraphData) (node_id : String) : GraphData :=
  { nodes := dremove g.nodes node_id,
    edges := g.edges.filter (fun e => ¬ edgeMentions e node_id) }

/-- `tuple(sorted(e.get("nodes", [])))`, compared against a sorted string
pair: only a two-element string list can ever compare equal. -/
def edgeKey (e : AttrBag) : Option (String × String) :=
  match dlookup e "nodes" with
  | some (.list [Val.str x, Val.str y]) => some (sortPair x y)
  | _ => none

/-- `GraphData.find_edge_index`. -/
def GraphData.find_edge_index (g : GraphData) (a b : String) : Option ℕ :=
  g.edges.findIdx? (fun e => decide (edgeKey e = some (sortPair a b)))

/-- `GraphData.upsert_edge`: canonicalize the pair, then replace the edge at
the found index wholesale, or append a new edge. -/
def GraphData.upsert_edge (g : GraphData) (a b : String) (attrs : AttrBag) :
    GraphData :=
  let key := sortPair a b
  let edge := dupdate [("nodes", Val.list [.str key.1, .str key.2])] attrs
  match g.find_edge_index a b with
  | some idx => { g with edges := g.edges.set idx edge }
  | none => { g with edges := g.edges ++ [edge] }

/-- `GraphData.remove_edge`. -/
def GraphData.remove_edge (g : GraphData) (a b : String) : GraphData :=
  { g with edges := g.edges.filter (fun e => ¬ (edgeKey e = some (sortPair a b))) }

end GraphEditor

/-! ### Concrete fixtures used by witnesses, counterexamples and the
spec's worked examples -/

/-- A road edge bag of 50 km (difficulty resolves to 1.0). -/
def roadAttrs50 : AttrBag :=
  [("route_type", Val.str "road"), ("approx_distance_km", Val.num 50)]

/-- The 50 km leg of the spec's simulator clamp example. -/
def legFixture : ActiveLeg :=
  { origin := "A", destination := "B", attrs := roadAttrs50,
    distance_km := 50, traveled_km := 0 }

/-- A session standing at `A` on the 50 km leg toward `B`. -/
def sessionFixture : TravelSession :=
  { nodes := [("A", [("id", Val.str "A")]), ("B", [("id", Val.str "B")])],
    adjacency := [("A", [("B", roadAttrs50)]), ("B", [("A", roadAttrs50)])],
    start_city := some "A", destination_city := some "B",
    current_city := some "A", active_leg := some legFixture,
    day := 0, total_traveled_km := 0, log := [] }

/-- The same session before the leg is started. -/
def sessionFixtureIdle : TravelSession :=
  { sessionFixture with active_leg := none }

/-- An edge bag of `d` km with an explicit difficulty factor. -/
def diffAttrs (d : ℚ) (f : ℚ) : AttrBag :=
  [("approx_distance_km", Val.num d), ("difficulty_factor", Val.num f)]

/-- The spec's 4-node line graph A–B–C–D, distances 10 km each, with
`difficulty_factor = 0.5` on the middle edge B–C (adjacency view,
symmetric entries). -/
def lineAdj : Adj :=
  [("A", [("B", [("approx_distance_km", Val.num 10)])]),
   ("B", [("A", [("approx_distance_km", Val.num 10)]),
          ("C", diffAttrs 10 0.5)]),
   ("C", [("B", diffAttrs 10 0.5),
          ("D", [("approx_distance_km", Val.num 10)])]),
   ("D", [("C", [("approx_distance_km", Val.num 10)])])]

/-- A `createGraph.Graph` fixture with one A–B edge. -/
def cgFixture : CreateGraph.Graph :=
  { nodes := [("A", [("id", Val.str "A")]), ("B", [("id", Val.str "B")])],
    edges := [(("A", "B"),
      [("nodes", Val.list [Val.str "A", Val.str "B"]),
       ("undirected", Val.bool true), ("route_type", Val.str "road")])] }

/-- `cgFixture` after re-adding the A–B edge with a `surface` attribute:
the bags merge. -/
def cgFixtureMerged : CreateGraph.Graph :=
  { nodes := cgFixture.nodes,
    edges := [(("A", "B"),
      [("nodes", Val.list [Val.str "A", Val.str "B"]),
       ("undirected", Val.bool true), ("route_type", Val.str "road"),
       ("surface", Val.str "mud")])] }

/-- `Graph().add_node("X", id="Y")`: the keyword attribute rebinds the
payload's `"id"` slot away from the node's dictionary key. -/
def cgBadId : CreateGraph.Graph :=
  CreateGraph.Graph.empty.add_node "X" [("id", Val.str "Y")]

/-- The fixture session after `init` → `reset_trip("A","B")` →
`start_leg("B")`: standing at `A` with `legFixture` active. -/
def sessionStarted : TravelSession :=
  { nodes := [("A", [("id", Val.str "A")]), ("B", [("id", Val.str "B")])],
    adjacency := [("A", [("B", roadAttrs50)]), ("B", [("A", roadAttrs50)])],
    start_city := some "A", destination_city := some "B",
    current_city := some "A", active_leg := some legFixture,
    day := 0, total_traveled_km := 0,
    log := [.tripBegins "A" "B", .departed "A" "B" 50 (Val.str "road")] }

/-- An edge bag with a negative explicit `difficulty_factor` (the data
model constrains the distance to be a non-negative real but says nothing
about the sign of the difficulty). -/
def negLegAttrs : AttrBag :=
  [("approx_distance_km", Val.num 50), ("difficulty_factor", Val.num (-1))]

/-- Node dict for the negative-difficulty scenario. -/
def negNodes : Dict AttrBag :=
  [("A", [("id", Val.str "A")]), ("B", [("id", Val.str "B")])]

/-- Adjacency view for the negative-difficulty scenario. -/
def negAdj2 : Adj := [("A", [("B", negLegAttrs)]), ("B", [("A", negLegAttrs)])]

/-- The session right after `reset_trip("A", "B")` on that graph. -/
def sessionNeg0 : TravelSession :=
  { nodes := negNodes, adjacency := negAdj2, start_city := some "A",
    destination_city := some "B", current_city := some "A", active_leg := none,
    day := 0, total_traveled_km := 0, log := [.tripBegins "A" "B"] }

/-- The leg created by `start_leg("B")` on that graph. -/
def negLeg : ActiveLeg :=
  { origin := "A", destination := "B", attrs := negLegAttrs,
    distance_km := 50, traveled_km := 0 }

/-- The session after `start_leg("B")`. -/
def sessionNeg1 : TravelSession :=
  { sessionNeg0 with
    active_leg := some negLeg,
    log := sessionNeg0.log ++ [.departed "A" "B" 50 (Val.str "route")] }

/-- The leg after one day of walking against difficulty −1: the covered
distance is `min (4.5 × 1 × (−1)) 50 = −4.5` km. -/
def negLegAfter : ActiveLeg := { negLeg with traveled_km := -(9/2) }

/-- The session after `travel_day("foot", 1)`. -/
def sessionNeg2 : TravelSession :=
  { sessionNeg1 with
    day := 1,
    total_traveled_km := -(9/2),
    active_leg := some negLegAfter,
    log := sessionNeg1.log ++ [.dayLine 1 "foot" 1 (9/2) (-1) (-(9/2))] }

/-- A graph with a negative `difficulty_factor` on edge a–b: Dijkstra pops
the destination directly (cost 10) and terminates, yet the walk
s→a→b→d costs 100 − 200 + 1 = −99. -/
def negAdj : Adj :=
  [("s", [("d", [("approx_distance_km", Val.num 10)]),
          ("a", [("approx_distance_km", Val.num 100)])]),
   ("a", [("s", [("approx_distance_km", Val.num 100)]),
          ("b", diffAttrs 100 (-2))]),
   ("b", [("a", diffAttrs 100 (-2)),
          ("d", [("approx_distance_km", Val.num 1)])]),
   ("d", [("s", [("approx_distance_km", Val.num 10)]),
          ("b", [("approx_distance_km", Val.num 1)])])]

/-! ## Theorems

Support lemmas first, then one theorem per claim (with its witness or
counterexample). -/

theorem mem_dkeys_of_dlookup {β : Type} {d : Dict β} {k : String} {v : β}
    (h : dlookup d k = some v) : k ∈ dkeys d := by
  induction d with
  | nil => simp [dlookup] at h
  | cons p rest ih =>
    obtain ⟨k', v'⟩ := p
    by_cases hp : k' = k
    · simp [dkeys, hp]
    · simp only [dlookup, hp, if_false] at h
      simp only [dkeys, List.map_cons, List.mem_cons]
      exact Or.inr (ih h)

theorem dlookup_eq_none_of_not_mem {β : Type} {d : Dict β} {k : String}
    (h : k ∉ dkeys d) : dlookup d k = none := by
  induction d with
  | nil => rfl
  | cons p rest ih =>
    obtain ⟨k', v'⟩ := p
    simp only [dkeys, List.map_cons, List.mem_cons, not_or] at h
    simp only [dlookup, if_neg (Ne.symm h.1)]
    exact ih (by simpa [dkeys] using h.2)

theorem bagEquivB_eq_true_iff (d₁ d₂ : AttrBag) :
    bagEquivB d₁ d₂ = true ↔ bagEquiv d₁ d₂ := by
  constructor
  · intro h k
    by_cases hk : k ∈ dkeys d₁ ++ dkeys d₂
    · exact of_decide_eq_true (List.all_eq_true.mp h k hk)
    · rw [List.mem_append, not_or] at hk
      rw [dlookup_eq_none_of_not_mem hk.1, dlookup_eq_none_of_not_mem hk.2]
  · intro h
    apply List.all_eq_true.mpr
    intro k _
    exact decide_eq_true (h k)

theorem dlookup_dinsert {β : Type} (d : Dict β) (k : String) (v : β) (k' : String) :
    dlookup (dinsert d k v) k' = if k = k' then some v else dlookup d k' := by
  induction d with
  | nil => simp [dinsert, dlookup]
  | cons p rest ih =>
    obtain ⟨pk, pv⟩ := p
    by_cases hp : pk = k
    · subst hp
      by_cases hk : pk = k'
      · simp [dinsert, dlookup, hk]
      · simp [dinsert, dlookup, hk]
    · have h1 : dinsert ((pk, pv) :: rest) k v = (pk, pv) :: dinsert rest k v := by
        simp [dinsert, hp]
      rw [h1]
      by_cases hk : pk = k'
      · subst hk
        simp [dlookup, if_neg (fun h => hp (Eq.symm h))]
      · simp [dlookup, if_neg hk, ih]

theorem dlookup_append {β : Type} (d₁ d₂ : Dict β) (k : String) :
    dlookup (d₁ ++ d₂) k =
      match dlookup d₁ k with
      | some v => some v
      | none => dlookup d₂ k := by
  induction d₁ with
  | nil => simp [dlookup]
  | cons p rest ih =>
    obtain ⟨pk, pv⟩ := p
    by_cases hp : pk = k
    · simp [dlookup, hp]
    · simp [dlookup, hp, ih]

theorem dlookup_dupdate {β : Type} (d new : Dict β) (k : String) :
    dlookup (dupdate d new) k =
      match dlookup new.reverse k with
      | some v => some v
      | none => dlookup d k := by
  induction new generalizing d with
  | nil => simp [dupdate, dlookup]
  | cons p rest ih =>
    obtain ⟨pk, pv⟩ := p
    show dlookup (dupdate (dinsert d pk pv) rest) k = _
    rw [ih, List.reverse_cons, dlookup_append, dlookup_dinsert]
    rcases h : dlookup rest.reverse k with _ | w
    · by_cases hp : pk = k <;> simp [dlookup, hp]
    · simp

theorem dlookup_dremove {β : Type} (d : Dict β) (k k' : String) :
    dlookup (dremove d k) k' = if k = k' then none else dlookup d k' := by
  induction d with
  | nil => simp [dremove, dlookup]
  | cons p rest ih =>
    obtain ⟨pk, pv⟩ := p
    by_cases hp : pk = k
    · subst hp
      have h1 : dremove ((pk, pv) :: rest) pk = dremove rest pk := by
        simp [dremove]
      rw [h1, ih]
      by_cases hk : pk = k'
      · simp [hk]
      · simp [hk, dlookup]
    · have h1 : dremove ((pk, pv) :: rest) k = (pk, pv) :: dremove rest k := by
        simp [dremove, hp]
      rw [h1]
      by_cases hk : pk = k'
      · subst hk
        simp [dlookup, if_neg (fun h => hp (Eq.symm h))]
      · simp [dlookup, if_neg hk, ih]

theorem dkeys_dinsert {β : Type} (d : Dict β) (k : String) (v : β) :
    dkeys (dinsert d k v) = if k ∈ dkeys d then dkeys d else dkeys d ++ [k] := by
  induction d with
  | nil => simp [dinsert, dkeys]
  | cons p rest ih =>
    obtain ⟨pk, pv⟩ := p
    by_cases hp : pk = k
    · subst hp
      simp [dinsert, dkeys]
    · have h1 : dinsert ((pk, pv) :: rest) k v = (pk, pv) :: dinsert rest k v := by
        simp [dinsert, hp]
      rw [h1]
      simp only [dkeys, List.map_cons] at ih ⊢
      rw [ih]
      by_cases hk : k ∈ List.map Prod.fst rest
      · rw [if_pos hk, if_pos (List.mem_cons_of_mem _ hk)]
      · rw [if_neg hk, if_neg (by
          simp only [List.mem_cons, not_or]
          exact ⟨fun h => hp (Eq.symm h), hk⟩)]
        simp

theorem dkeys_dinsert_nodup {β : Type} {d : Dict β} (k : String) (v : β)
    (h : (dkeys d).Nodup) : (dkeys (dinsert d k v)).Nodup := by
  rw [dkeys_dinsert]
  split
  · exact h
  · rename_i hk
    simpa [List.nodup_append] using ⟨h, hk⟩

theorem dkeys_dupdate_nodup {β : Type} {d : Dict β} (new : Dict β)
    (h : (dkeys d).Nodup) : (dkeys (dupdate d new)).Nodup := by
  induction new generalizing d with
  | nil => exact h
  | cons p rest ih => exact ih (dkeys_dinsert_nodup p.1 p.2 h)

theorem dlookup_reverse_of_nodup {β : Type} {d : Dict β}
    (h : (dkeys d).Nodup) (k : String) : dlookup d.reverse k = dlookup d k := by
  induction d with
  | nil => rfl
  | cons p rest ih =>
    obtain ⟨pk, pv⟩ := p
    simp only [dkeys, List.map_cons, List.nodup_cons] at h
    rw [List.reverse_cons, dlookup_append, ih h.2]
    by_cases hp : pk = k
    · subst hp
      rw [dlookup_eq_none_of_not_mem h.1]
      simp [dlookup]
    · rcases hr : dlookup rest k with _ | w
      · simp [dlookup, hp, hr]
      · simp [dlookup, hp, hr]

theorem dlookup_dupdate_nodup {β : Type} (d : Dict β) {new : Dict β}
    (h : (dkeys new).Nodup) (k : String) :
    dlookup (dupdate d new) k =
      match dlookup new k with
      | some v => some v
      | none => dlookup d k := by
  rw [dlookup_dupdate, dlookup_reverse_of_nodup h]

theorem sortPair_comm (a b : String) : sortPair a b = sortPair b a := by
  unfold sortPair
  rcases le_total a b with h | h
  · by_cases h' : b ≤ a
    · have : a = b := le_antisymm h h'
      subst this
      simp
    · simp [h, h']
  · by_cases h' : a ≤ b
    · have : a = b := le_antisymm h' h
      subst this
      simp
    · simp [h, h']

theorem elookup_einsert (es : List ((String × String) × AttrBag))
    (k : String × String) (v : AttrBag) (k' : String × String) :
    CreateGraph.elookup (CreateGraph.einsert es k v) k' =
      if k = k' then some v else CreateGraph.elookup es k' := by
  induction es with
  | nil => simp [CreateGraph.einsert, CreateGraph.elookup]
  | cons p rest ih =>
    obtain ⟨pk, pv⟩ := p
    by_cases hp : pk = k
    · subst hp
      by_cases hk : pk = k'
      · simp [CreateGraph.einsert, CreateGraph.elookup, hk]
      · simp [CreateGraph.einsert, CreateGraph.elookup, hk]
    · have h1 : CreateGraph.einsert ((pk, pv) :: rest) k v =
          (pk, pv) :: CreateGraph.einsert rest k v := by
        simp [CreateGraph.einsert, hp]
      rw [h1]
      by_cases hk : pk = k'
      · subst hk
        simp [CreateGraph.elookup, if_neg (fun h => hp (Eq.symm h))]
      · simp [CreateGraph.elookup, if_neg hk, ih]

theorem einsert_keys_of_mem {es : List ((String × String) × AttrBag)}
    {k : String × String} {old : AttrBag} (h : CreateGraph.elookup es k = some old)
    (v : AttrBag) :
    (CreateGraph.einsert es k v).map Prod.fst = es.map Prod.fst := by
  induction es with
  | nil => simp [CreateGraph.elookup] at h
  | cons p rest ih =>
    obtain ⟨pk, pv⟩ := p
    by_cases hp : pk = k
    · subst hp
      simp [CreateGraph.einsert]
    · have h1 : CreateGraph.einsert ((pk, pv) :: rest) k v =
          (pk, pv) :: CreateGraph.einsert rest k v := by
        simp [CreateGraph.einsert, hp]
      simp only [CreateGraph.elookup, hp, if_false] at h
      rw [h1]
      simp [ih h]

/-! ### C8: difficulty resolution -/

/-- C8: the resolved difficulty factor is the explicit `difficulty_factor`
attribute when present (and numeric), else the `difficulty_modifier`
attribute when present (and numeric), else the `ROUTE_DIFFICULTY` table
value for the bag's `route_type` (road = 1.0, trail = 0.85,
mountain_pass = 0.7, shore = 1.0, sea = 1.0), defaulting to 1.0 for
missing or unknown route types.  The last conjunct records that the
traversal weight used by the routing engine factors through the same
`difficulty_for_edge` that `travel_day` calls. -/
theorem C8_difficulty_resolution :
    (∀ (attrs : AttrBag) (v : Val) (q : ℚ),
        dlookup attrs "difficulty_factor" = some v → pyFloat v = some q →
        difficulty_for_edge attrs = some q) ∧
    (∀ (attrs : AttrBag) (v : Val) (q : ℚ),
        dlookup attrs "difficulty_factor" = none →
        dlookup attrs "difficulty_modifier" = some v → pyFloat v = some q →
        difficulty_for_edge attrs = some q) ∧
    (∀ (attrs : AttrBag) (rt : String),
        dlookup attrs "difficulty_factor" = none →
        dlookup attrs "difficulty_modifier" = none →
        dlookup attrs "route_type" = some (.str rt) →
        difficulty_for_edge attrs = some ((dlookup ROUTE_DIFFICULTY rt).getD 1)) ∧
    (∀ (attrs : AttrBag),
        dlookup attrs "difficulty_factor" = none →
        dlookup attrs "difficulty_modifier" = none →
        dlookup attrs "route_type" = none →
        difficulty_for_edge attrs = some 1) ∧
    dlookup ROUTE_DIFFICULTY "road" = some 1 ∧
    dlookup ROUTE_DIFFICULTY "trail" = some 0.85 ∧
    dlookup ROUTE_DIFFICULTY "mountain_pass" = some 0.7 ∧
    dlookup ROUTE_DIFFICULTY "shore" = some 1 ∧
    dlookup ROUTE_DIFFICULTY "sea" = some 1 ∧
    (∀ rt : String, rt ∉ dkeys ROUTE_DIFFICULTY →
        dlookup ROUTE_DIFFICULTY rt = none) ∧
    (∀ (attrs : AttrBag) (b d : ℚ),
        pyFloat (edgeBase attrs) = some b → difficulty_for_edge attrs = some d →
        entryWeight attrs = some (b * d)) := by
  refine ⟨?_, ?_, ?_, ?_, by simp [ROUTE_DIFFICULTY, dlookup] <;> norm_num,
    by simp [ROUTE_DIFFICULTY, dlookup] <;> norm_num,
    by simp [ROUTE_DIFFICULTY, dlookup] <;> norm_num,
    by simp [ROUTE_DIFFICULTY, dlookup] <;> norm_num,
    by simp [ROUTE_DIFFICULTY, dlookup] <;> norm_num,
    ?_, ?_⟩
  · intro attrs v q h₁ h₂
    simp [difficulty_for_edge, h₁, h₂]
  · intro attrs v q h₁ h₂ h₃
    simp [difficulty_for_edge, h₁, h₂, h₃]
  · intro attrs rt h₁ h₂ h₃
    simp [difficulty_for_edge, h₁, h₂, h₃]
  · intro attrs h₁ h₂ h₃
    simp [difficulty_for_edge, h₁, h₂, h₃]
  · intro rt h
    exact dlookup_eq_none_of_not_mem h
  · intro attrs b d h₁ h₂
    simp [entryWeight, h₁, h₂]

/-- Witness for C8 at a concrete input. -/
theorem C8_difficulty_resolution_witness :
    difficulty_for_edge [("difficulty_modifier", Val.num (1/2))] = some (1/2) :=
  C8_difficulty_resolution.2.1 [("difficulty_modifier", Val.num (1/2))]
    (Val.num (1/2)) (1/2) (by simp [dlookup]) (by simp [dlookup]) rfl

/-! ### C6: cascading delete in the editor's graph model -/

/-- C6: after `remove_node X`, the node `X` is gone from the node dict and
no remaining edge's endpoint list mentions `X`. -/
theorem C6_remove_node_cascades (g : GraphEditor.GraphData) (X : String) :
    dlookup (g.remove_node X).nodes X = none ∧
    ∀ e ∈ (g.remove_node X).edges, GraphEditor.edgeMentions e X = false := by
  constructor
  · show dlookup (dremove g.nodes X) X = none
    rw [dlookup_dremove]
    simp
  · intro e he
    have hm : e ∈ g.edges.filter (fun e => ¬ GraphEditor.edgeMentions e X) := he
    have := List.of_mem_filter hm
    simpa using of_decide_eq_true this

/-- Witness for C6 on a concrete graph. -/
theorem C6_remove_node_cascades_witness :
    dlookup ((GraphEditor.GraphData.mk
        [("A", []), ("B", [])]
        [[("nodes", Val.list [Val.str "A", Val.str "B"])]]).remove_node "A").nodes
        "A" = none ∧
    ((GraphEditor.GraphData.mk
        [("A", []), ("B", [])]
        [[("nodes", Val.list [Val.str "A", Val.str "B"])]]).remove_node "A").edges
        = [] := by
  refine ⟨(C6_remove_node_cascades _ "A").1, ?_⟩
  simp [GraphEditor.GraphData.remove_node, GraphEditor.edgeMentions, dlookup]

/-! ### C2: travel_day clamps to the remaining leg distance -/

set_option maxHeartbeats 1000000 in
/-- Evaluation of the spec's worked example: `travelDay("foot", 100)` on the
50 km fixture leg. -/
theorem travel_day_fixture_eval : sessionFixture.travel_day "foot" 100 = .ok
    ({ nodes := sessionFixture.nodes, adjacency := sessionFixture.adjacency,
       start_city := some "A", destination_city := some "B",
       current_city := some "B", active_leg := none, day := 1,
       total_traveled_km := 50,
       log := [LogEntry.dayLine 1 "foot" 100 (9/2) 1 50,
               LogEntry.arrived "B"] },
     { day := 1, traveled_km := 50, remaining_leg_km := 0,
       at_city := some "B", reached_destination := true }) := by
  have h1 : difficulty_for_edge roadAttrs50 = some 1 := by
    simp [difficulty_for_edge, roadAttrs50, dlookup, ROUTE_DIFFICULTY] <;> norm_num
  have h2 : speed_for_mode "foot" = 9 / 2 := by
    simp [speed_for_mode, SPEEDS_KMH, dlookup] <;> norm_num
  norm_num [TravelSession.travel_day, sessionFixture, legFixture, h1, h2,
    ActiveLeg.remaining_km, isclose, abs, min_def, max_def]

/-- C2: for a session in the Traveling state and `travel_day(mode, hours)`
with `hours > 0` (and a resolvable difficulty, per the data model), the
distance covered equals `min (speed × hours × difficulty) remaining`; the
leg's traveled distance never exceeds its total distance; and when the
accumulated distance reaches the leg total within `math.isclose` tolerance
or exceeds it, the current location becomes the leg's destination and the
active leg is cleared.  The final conjunct is the spec's example: on a
50 km leg, `travelDay("foot", 100)` at 4.5 km/h covers exactly 50 km,
completes the leg and moves the session to `B`. -/
theorem C2_travel_day_clamp (s : TravelSession) (leg : ActiveLeg)
    (mode : String) (hours diff : ℚ)
    (hleg : s.active_leg = some leg)
    (hh : 0 < hours)
    (hinv : leg.traveled_km ≤ leg.distance_km)
    (hdiff : difficulty_for_edge leg.attrs = some diff) :
    (∃ s' res, s.travel_day mode hours = .ok (s', res) ∧
      res.traveled_km =
        min (speed_for_mode mode * hours * diff) leg.remaining_km ∧
      (∀ leg', s'.active_leg = some leg' →
        leg'.traveled_km = leg.traveled_km + res.traveled_km ∧
        leg'.distance_km = leg.distance_km ∧
        leg'.traveled_km ≤ leg'.distance_km) ∧
      ((isclose (leg.traveled_km + res.traveled_km) leg.distance_km = true ∨
          leg.distance_km ≤ leg.traveled_km + res.traveled_km) →
        s'.current_city = some leg.destination ∧ s'.active_leg = none)) ∧
    (∃ s' res, sessionFixture.travel_day "foot" 100 = .ok (s', res) ∧
      res.traveled_km = 50 ∧ res.reached_destination = true ∧
      s'.active_leg = none ∧ s'.current_city = some "B") := by
  constructor
  · have hrem : leg.remaining_km = leg.distance_km - leg.traveled_km := by
      simp [ActiveLeg.remaining_km, max_eq_right (sub_nonneg.mpr hinv)]
    have hbound : leg.traveled_km +
        min (speed_for_mode mode * hours * diff) leg.remaining_km ≤
        leg.distance_km := by
      have := min_le_right (speed_for_mode mode * hours * diff) leg.remaining_km
      rw [hrem] at this ⊢
      linarith
    unfold TravelSession.travel_day
    rw [hleg]
    simp only [if_neg (not_le.mpr hh), hdiff]
    split
    · rename_i hreached
      refine ⟨_, _, rfl, rfl, ?_, ?_⟩
      · intro leg' h
        simp at h
      · intro _
        exact ⟨rfl, rfl⟩
    · rename_i hreached
      refine ⟨_, _, rfl, rfl, ?_, ?_⟩
      · intro leg' h
        simp only [Option.some.injEq] at h
        subst h
        exact ⟨rfl, rfl, hbound⟩
      · intro hdone
        exfalso
        apply hreached
        rcases hdone with h | h
        · simp [h]
        · simp [ge_iff_le, h]
  · exact ⟨_, _, travel_day_fixture_eval, rfl, rfl, rfl, rfl⟩

/-- Witness for C2 on the 50 km fixture. -/
theorem C2_travel_day_clamp_witness :
    ∃ s' res, sessionFixture.travel_day "foot" 100 = .ok (s', res) ∧
      res.traveled_km =
        min (speed_for_mode "foot" * 100 * 1) legFixture.remaining_km := by
  obtain ⟨s', res, h1, h2, -, -⟩ :=
    (C2_travel_day_clamp sessionFixture legFixture "foot" 100 1 rfl
      (by norm_num) (by norm_num [legFixture])
      (by simp [legFixture, roadAttrs50, difficulty_for_edge, dlookup,
            ROUTE_DIFFICULTY] <;> norm_num)).1
  exact ⟨s', res, h1, h2⟩

/-! ### C7: start_leg error cases -/

/-- C7: with a current location set, `start_leg` fails with
`AlreadyTraveling` exactly when a leg is active; fails with `SameLocation`
when the destination equals the current location; fails with `NoSuchRoute`
when the destination is not adjacent; and otherwise (with a data-model
conformant, numeric-or-absent edge distance) succeeds, snapshotting the
edge's attributes and physical distance into a fresh leg with zero
progress. -/
theorem C7_start_leg_cases (s : TravelSession) (cur : String)
    (hcur : s.current_city = some cur) :
    (∀ leg d, s.active_leg = some leg →
        s.start_leg d = .error (.alreadyTraveling, s)) ∧
    (s.active_leg = none → s.start_leg cur = .error (.sameLocation, s)) ∧
    (∀ d, s.active_leg = none → d ≠ cur → dlookup s.routesDict d = none →
        s.start_leg d = .error (.noSuchRoute, s)) ∧
    (∀ d attrs q, s.active_leg = none → d ≠ cur →
        dlookup s.routesDict d = some attrs → pyFloat (edgeBase attrs) = some q →
        ∃ s', s.start_leg d =
            .ok (s', { origin := cur, destination := d, attrs := attrs,
                       distance_km := q, traveled_km := 0 }) ∧
          s'.active_leg = some
            { origin := cur, destination := d, attrs := attrs,
              distance_km := q, traveled_km := 0 }) := by
  refine ⟨?_, ?_, ?_, ?_⟩
  · intro leg d h
    simp [TravelSession.start_leg, h]
  · intro h
    simp [TravelSession.start_leg, h, hcur]
  · intro d h hne hroute
    simp [TravelSession.start_leg, h, hcur, hroute, hne]
  · intro d attrs q h hne hroute hq
    simp only [TravelSession.start_leg, h, hcur, hroute, hq,
      Option.isSome_none, Bool.false_eq_true, if_false, Option.some.injEq,
      if_neg hne, Option.getD_some]
    exact ⟨_, rfl, rfl⟩

/-- Witness for C7: starting the fixture's leg from the idle session. -/
theorem C7_start_leg_cases_witness :
    ∃ s', sessionFixtureIdle.start_leg "B" =
        .ok (s', { origin := "A", destination := "B", attrs := roadAttrs50,
                   distance_km := 50, traveled_km := 0 }) ∧
      s'.active_leg = some
        { origin := "A", destination := "B", attrs := roadAttrs50,
          distance_km := 50, traveled_km := 0 } :=
  (C7_start_leg_cases sessionFixtureIdle "A" rfl).2.2.2 "B" roadAttrs50 50 rfl
    (by simp)
    (by simp [TravelSession.routesDict, TravelSession.available_routes,
          sessionFixtureIdle, sessionFixture, adjGet, dlookup, dinsert])
    (by simp [roadAttrs50, edgeBase, dlookup, pyFloat])

/-! ### C10: failures with the typed errors are atomic -/

/-- C10: whenever `reset_trip`, `start_leg` or `travel_day` fails with one
of the typed errors named by the spec (`UnknownNode`, `AlreadyTraveling`,
`SameLocation`, `NoSuchRoute`, `NoActiveLeg`, `NonPositiveHours`), the
session state carried by the failure is exactly the pre-call state.  (The
only non-atomic failure path in the source is `travel_day`'s difficulty
`TypeError` after `self.day += 1`, which is not one of the listed errors —
hence the `badValue` exclusion in the third conjunct.) -/
theorem C10_typed_failures_atomic :
    (∀ (s : TravelSession) (a b : String) (e : SimError) (s' : TravelSession),
        s.reset_trip a b = .error (e, s') → s' = s) ∧
    (∀ (s : TravelSession) (d : String) (e : SimError) (s' : TravelSession),
        s.start_leg d = .error (e, s') → s' = s) ∧
    (∀ (s : TravelSession) (mode : String) (hours : ℚ) (e : SimError)
        (s' : TravelSession),
        s.travel_day mode hours = .error (e, s') → e ≠ .badValue → s' = s) := by
  refine ⟨?_, ?_, ?_⟩
  · intro s a b e s' h
    unfold TravelSession.reset_trip at h
    split at h
    · simp only [Except.error.injEq, Prod.mk.injEq] at h
      exact h.2.symm
    · simp at h
  · intro s d e s' h
    unfold TravelSession.start_leg at h
    split at h
    · simp only [Except.error.injEq, Prod.mk.injEq] at h
      exact h.2.symm
    · split at h
      · simp only [Except.error.injEq, Prod.mk.injEq] at h
        exact h.2.symm
      · split at h
        · simp only [Except.error.injEq, Prod.mk.injEq] at h
          exact h.2.symm
        · split at h
          · simp only [Except.error.injEq, Prod.mk.injEq] at h
            exact h.2.symm
          · simp at h
  · intro s mode hours e s' h hbad
    unfold TravelSession.travel_day at h
    split at h
    · simp only [Except.error.injEq, Prod.mk.injEq] at h
      exact h.2.symm
    · split at h
      · simp only [Except.error.injEq, Prod.mk.injEq] at h
        exact h.2.symm
      · split at h
        · simp only [Except.error.injEq, Prod.mk.injEq] at h
          exact absurd h.1.symm hbad
        · exfalso
          simp only [] at h
          split at h <;> simp at h

/-- Witness for C10: a failing `travel_day` with no active leg leaves the
idle fixture session untouched. -/
theorem C10_typed_failures_atomic_witness :
    sessionFixtureIdle = sessionFixtureIdle :=
  C10_typed_failures_atomic.2.2 sessionFixtureIdle "foot" 8 .noActiveLeg
    sessionFixtureIdle rfl (by simp)

/-! ### C9: the active-leg progress invariant -/

theorem mem_of_dlookup {β : Type} {d : Dict β} {k : String} {v : β}
    (h : dlookup d k = some v) : (k, v) ∈ d := by
  induction d with
  | nil => simp [dlookup] at h
  | cons p rest ih =>
    obtain ⟨pk, pv⟩ := p
    by_cases hp : pk = k
    · subst hp
      simp only [dlookup, if_true, eq_self_iff_true, if_pos, Option.some.injEq] at h
      subst h
      simp
    · simp only [dlookup, hp, if_false] at h
      exact List.mem_cons_of_mem _ (ih h)

theorem dlookup_foldl_dinsert {β : Type} (l : List (String × β)) (init : Dict β)
    (k : String) (v : β)
    (h : dlookup (l.foldl (fun dd p => dinsert dd p.1 p.2) init) k = some v) :
    (k, v) ∈ l ∨ dlookup init k = some v := by
  induction l generalizing init with
  | nil => exact Or.inr h
  | cons p rest ih =>
    rcases ih (dinsert init p.1 p.2) h with hmem | hini
    · exact Or.inl (List.mem_cons_of_mem _ hmem)
    · rw [dlookup_dinsert] at hini
      by_cases hp : p.1 = k
      · subst hp
        simp only [if_true, eq_self_iff_true, if_pos, Option.some.injEq] at hini
        subst hini
        exact Or.inl (List.mem_cons_self _ _)
      · rw [if_neg hp] at hini
        exact Or.inr hini

theorem wfAdjB_spec {adj : Adj} (h : wfAdjB adj = true) {u v : String}
    {attrs : AttrBag} (hm : (v, attrs) ∈ adjGet adj u) :
    (∃ b, pyFloat (edgeBase attrs) = some b ∧ 0 ≤ b) ∧
    (∃ dq, difficulty_for_edge attrs = some dq ∧ 0 ≤ dq) := by
  unfold adjGet at hm
  rcases hlu : dlookup adj u with _ | entries
  · rw [hlu] at hm
    simp at hm
  · rw [hlu] at hm
    simp only [Option.getD_some] at hm
    have hpair : (u, entries) ∈ adj := mem_of_dlookup hlu
    have h1 := List.all_eq_true.mp h _ hpair
    simp only [] at h1
    have h2 := List.all_eq_true.mp h1 _ hm
    simp only [] at h2
    rw [Bool.and_eq_true] at h2
    constructor
    · rcases hb : pyFloat (edgeBase attrs) with _ | b
      · rw [hb] at h2
        exact absurd h2.1 (by simp)
      · rw [hb] at h2
        exact ⟨b, rfl, of_decide_eq_true h2.1⟩
    · rcases hd : difficulty_for_edge attrs with _ | dq
      · rw [hd] at h2
        exact absurd h2.2 (by simp)
      · rw [hd] at h2
        exact ⟨dq, rfl, of_decide_eq_true h2.2⟩

theorem speed_for_mode_pos (mode : String) : 0 < speed_for_mode mode := by
  unfold speed_for_mode SPEEDS_KMH
  rcases h : dlookup
      [("foot", (4.5 : ℚ)), ("horse", 7.0), ("wagon", 5.0), ("pack_lizard", 6.0),
       ("barge", 6.0), ("river_boat", 9.0), ("row", 5.5), ("sail", 12.0),
       ("knarr", 10.0)] mode with _ | q
  · simp only [h, Option.getD_none]
    norm_num
  · simp only [h, Option.getD_some]
    simp only [dlookup] at h
    split_ifs at h
    all_goals first
    | (injection h with h; rw [← h]; norm_num)
    | exact Option.noConfusion h

theorem routesDict_mem {s : TravelSession} {d : String} {attrs : AttrBag}
    (h : dlookup s.routesDict d = some attrs) :
    ∃ cur, s.current_city = some cur ∧ (d, attrs) ∈ adjGet s.adjacency cur := by
  unfold TravelSession.routesDict at h
  rcases dlookup_foldl_dinsert _ _ _ _ h with hmem | hini
  · unfold TravelSession.available_routes at hmem
    rcases hc : s.current_city with _ | cur
    · rw [hc] at hmem
      simp at hmem
    · rw [hc] at hmem
      simp only [] at hmem
      by_cases he : cur = ""
      · rw [if_pos he] at hmem
        simp at hmem
      · rw [if_neg he] at hmem
        exact ⟨cur, rfl, hmem⟩
  · simp [dlookup] at hini

/-- The strengthened induction invariant behind C9: reachable sessions keep
a wellformed adjacency view, and any active leg has nonnegative progress
bounded by its total distance, a nonnegative resolvable difficulty, and a
leg total equal to its bag's base distance. -/
theorem reachable_session_invariant (s : TravelSession)
    (h : ReachableSession s) :
    wfAdjB s.adjacency = true ∧
    ∀ leg, s.active_leg = some leg →
      0 ≤ leg.traveled_km ∧ leg.traveled_km ≤ leg.distance_km ∧
      ∃ dq, difficulty_for_edge leg.attrs = some dq ∧ 0 ≤ dq := by
  induction h with
  | init nodes adj hwf =>
    exact ⟨hwf, by intro leg h; simp [TravelSession.init] at h⟩
  | reset a b hr heq ih =>
    rename_i s s'
    unfold TravelSession.reset_trip at heq
    split at heq
    · simp at heq
    · simp only [Except.ok.injEq] at heq
      subst heq
      exact ⟨ih.1, by intro leg h; simp at h⟩
  | start d hr heq ih =>
    rename_i s s' leg₀
    unfold TravelSession.start_leg at heq
    split at heq
    · simp at heq
    · split at heq
      · simp at heq
      · split at heq
        · simp at heq
        · rename_i attrs hroute
          split at heq
          · simp at heq
          · rename_i q hq
            simp only [Except.ok.injEq, Prod.mk.injEq] at heq
            obtain ⟨heqs, heqleg⟩ := heq
            subst heqs
            refine ⟨ih.1, ?_⟩
            intro leg hleg
            simp only [Option.some.injEq] at hleg
            subst hleg
            obtain ⟨cur, hcur, hmem⟩ := routesDict_mem hroute
            obtain ⟨⟨b, hb, hb0⟩, ⟨dq, hdq, hdq0⟩⟩ := wfAdjB_spec ih.1 hmem
            rw [hq] at hb
            simp only [Option.some.injEq] at hb
            subst hb
            exact ⟨le_refl 0, hb0, dq, hdq, hdq0⟩
  | travel mode hours hr heq ih =>
    rename_i s s' res
    unfold TravelSession.travel_day at heq
    split at heq
    · simp at heq
    · rename_i leg₀ hleg₀
      split at heq
      · simp at heq
      · rename_i hhours
        split at heq
        · simp at heq
        · rename_i difficulty hdiff
          obtain ⟨hlow, hhigh, dq, hdq, hdq0⟩ := ih.2 leg₀ hleg₀
          have hdiff0 : 0 ≤ difficulty := by
            rw [hdq] at hdiff
            simp only [Option.some.injEq] at hdiff
            rw [hdiff] at hdq0
            exact hdq0
          have hpot : 0 ≤ speed_for_mode mode * hours * difficulty := by
            have hs := speed_for_mode_pos mode
            have hh : 0 < hours := lt_of_not_ge hhours
            positivity
          have hrem : leg₀.remaining_km = leg₀.distance_km - leg₀.traveled_km := by
            simp [ActiveLeg.remaining_km, max_eq_right (sub_nonneg.mpr hhigh)]
          have htr0 : 0 ≤ min (speed_for_mode mode * hours * difficulty)
              leg₀.remaining_km := by
            apply le_min hpot
            linarith [hrem]
          have htr1 : leg₀.traveled_km +
              min (speed_for_mode mode * hours * difficulty) leg₀.remaining_km ≤
              leg₀.distance_km := by
            have hmle := min_le_right (speed_for_mode mode * hours * difficulty)
              leg₀.remaining_km
            linarith [hrem]
          simp only [] at heq
          split at heq
          · simp only [Except.ok.injEq, Prod.mk.injEq] at heq
            obtain ⟨heqs, heqres⟩ := heq
            subst heqs
            exact ⟨ih.1, by intro leg h; simp at h⟩
          · simp only [Except.ok.injEq, Prod.mk.injEq] at heq
            obtain ⟨heqs, heqres⟩ := heq
            subst heqs
            refine ⟨ih.1, ?_⟩
            intro leg hleg
            simp only [Option.some.injEq] at hleg
            subst hleg
            exact ⟨by positivity, htr1, dq, hdq, hdq0⟩

/-- C9 counterexample: on a graph whose A–B edge carries
`difficulty_factor = −1` (allowed by the data model, which constrains only
the distance to be nonnegative), the successful call chain
`reset_trip("A","B")`; `start_leg("B")`; `travel_day("foot", 1)` yields an
active leg with traveled distance −4.5 km < 0, violating
`0 ≤ traveled ≤ distance`. -/
theorem C9_counterexample :
    (TravelSession.init negNodes negAdj2).reset_trip "A" "B" = .ok sessionNeg0 ∧
    sessionNeg0.start_leg "B" = .ok (sessionNeg1, negLeg) ∧
    sessionNeg1.travel_day "foot" 1 = .ok (sessionNeg2,
      { day := 1, traveled_km := -(9/2), remaining_leg_km := 109/2,
        at_city := some "A", reached_destination := false }) ∧
    sessionNeg2.active_leg = some negLegAfter ∧
    negLegAfter.traveled_km < 0 := by
  have h1 : difficulty_for_edge
      [("approx_distance_km", Val.num 50), ("difficulty_factor", Val.num (-1))] =
      some (-1) := by
    simp [difficulty_for_edge, dlookup, pyFloat]
  have h2 : speed_for_mode "foot" = 9 / 2 := by
    simp [speed_for_mode, SPEEDS_KMH, dlookup] <;> norm_num
  refine ⟨?_, ?_, ?_, rfl, by norm_num [negLegAfter, negLeg]⟩
  · simp [TravelSession.reset_trip, TravelSession.init, negNodes, dmem, dlookup,
      sessionNeg0]
  · simp [TravelSession.start_leg, sessionNeg0, sessionNeg1, negLeg,
      TravelSession.routesDict, TravelSession.available_routes, adjGet,
      negAdj2, negNodes, dlookup, dinsert, negLegAttrs, edgeBase, pyFloat]
  · norm_num [TravelSession.travel_day, sessionNeg1, sessionNeg2, sessionNeg0,
      negLeg, negLegAfter, h1, h2, ActiveLeg.remaining_km, isclose, abs,
      min_def, max_def, negNodes, negAdj2, negLegAttrs]

/-- C9 (amended): over a wellformed adjacency view — numeric nonnegative
base distances (the data model's "non-negative real" distance) and
nonnegative resolved difficulties (§4.2's "all weights must be
non-negative") — every session reachable by successful
`reset_trip`/`start_leg`/`travel_day` calls satisfies
`0 ≤ traveled ≤ distance` for its active leg; in particular every
`travel_day` call preserves the invariant. -/
theorem C9_amended_leg_invariant (s : TravelSession) (h : ReachableSession s)
    (leg : ActiveLeg) (hleg : s.active_leg = some leg) :
    0 ≤ leg.traveled_km ∧ leg.traveled_km ≤ leg.distance_km :=
  ⟨((reachable_session_invariant s h).2 leg hleg).1,
   ((reachable_session_invariant s h).2 leg hleg).2.1⟩

/-- Witness for C9 (amended): the invariant holds for the fixture leg of
the concretely reachable `sessionStarted`. -/
theorem C9_amended_leg_invariant_witness :
    0 ≤ legFixture.traveled_km ∧
    legFixture.traveled_km ≤ legFixture.distance_km := by
  have hwf : wfAdjB ([("A", [("B", roadAttrs50)]), ("B", [("A", roadAttrs50)])] : Adj)
      = true := by
    simp [wfAdjB, roadAttrs50, edgeBase, dlookup, pyFloat, difficulty_for_edge,
      ROUTE_DIFFICULTY] <;> norm_num
  have h0 : ReachableSession (TravelSession.init
      [("A", [("id", Val.str "A")]), ("B", [("id", Val.str "B")])]
      [("A", [("B", roadAttrs50)]), ("B", [("A", roadAttrs50)])]) :=
    .init _ _ hwf
  have h1 : ReachableSession
      { sessionStarted with
        active_leg := none,
        log := [.tripBegins "A" "B"] } := by
    refine .reset "A" "B" h0 ?_
    simp [TravelSession.reset_trip, TravelSession.init, dmem, dlookup,
      sessionStarted]
  have h2 : ReachableSession sessionStarted := by
    refine @ReachableSession.start _ sessionStarted legFixture "B" h1 ?_
    simp [TravelSession.start_leg, sessionStarted, legFixture,
      TravelSession.routesDict, TravelSession.available_routes, adjGet,
      dlookup, dinsert, roadAttrs50, edgeBase, pyFloat]
  exact C9_amended_leg_invariant sessionStarted h2 legFixture rfl

/-! ### C4: edge canonicalization and merge-on-insert -/

/-- C4 counterexample: `GraphData.upsert_edge` on an existing canonical
pair replaces the stored attribute bag wholesale instead of merging it —
re-adding the A–B edge with only a `surface` attribute drops the stored
`route_type` key, which the claim says must be preserved. -/
theorem C4_counterexample :
    ((GraphEditor.GraphData.mk [("A", []), ("B", [])]
        [[("nodes", Val.list [Val.str "A", Val.str "B"]),
          ("route_type", Val.str "road")]]).upsert_edge "A" "B"
        [("surface", Val.str "mud")]).edges =
      [[("nodes", Val.list [Val.str "A", Val.str "B"]),
        ("surface", Val.str "mud")]] ∧
    dlookup [(("nodes" : String), Val.list [Val.str "A", Val.str "B"]),
        ("surface", Val.str "mud")] "route_type" = none := by
  have hAB : ("A" : String) ≤ "B" := by
    have h : (['A'] : List Char) ≤ ['B'] := by decide
    simpa using h
  constructor
  · simp [GraphEditor.GraphData.upsert_edge, GraphEditor.GraphData.find_edge_index,
      GraphEditor.edgeKey, sortPair, hAB, dlookup, dupdate, dinsert,
      List.findIdx?]
  · simp [dlookup]

/-- C4 (amended): both edge-insert operations canonicalize the node pair
(inserting for `(a,b)` and for `(b,a)` is the same operation and yields a
single stored edge under the sorted-pair key), and `Graph.add_edge` merges
key by key — later write wins, keys absent from the incoming bag are
preserved, and no duplicate key is created.  `GraphData.upsert_edge`,
however, replaces the stored bag wholesale (or appends when the pair is
new): keys absent from the incoming bag are dropped, not preserved. -/
theorem C4_amended :
    (∀ (g : CreateGraph.Graph) (a b : String) (attrs : AttrBag),
        g.add_edge a b attrs = g.add_edge b a attrs) ∧
    (∀ (g : CreateGraph.Graph) (a b : String) (attrs : AttrBag)
        (g' : CreateGraph.Graph) (old : AttrBag),
        (dkeys attrs).Nodup →
        g.add_edge a b attrs = .ok g' →
        CreateGraph.elookup g.edges (sortPair a b) = some old →
        ∃ merged, CreateGraph.elookup g'.edges (sortPair a b) = some merged ∧
          (∀ k v, dlookup attrs k = some v → k ≠ "nodes" → k ≠ "undirected" →
            dlookup merged k = some v) ∧
          (∀ k, dlookup attrs k = none → k ≠ "nodes" → k ≠ "undirected" →
            dlookup merged k = dlookup old k) ∧
          g'.edges.map Prod.fst = g.edges.map Prod.fst) ∧
    (∀ (gd : GraphEditor.GraphData) (a b : String) (attrs : AttrBag),
        gd.upsert_edge a b attrs = gd.upsert_edge b a attrs) ∧
    (∀ (gd : GraphEditor.GraphData) (a b : String) (attrs : AttrBag) (i : ℕ),
        gd.find_edge_index a b = some i →
        (gd.upsert_edge a b attrs).edges =
          gd.edges.set i (dupdate [("nodes",
            Val.list [.str (sortPair a b).1, .str (sortPair a b).2])] attrs)) ∧
    (∀ (gd : GraphEditor.GraphData) (a b : String) (attrs : AttrBag),
        gd.find_edge_index a b = none →
        (gd.upsert_edge a b attrs).edges =
          gd.edges ++ [dupdate [("nodes",
            Val.list [.str (sortPair a b).1, .str (sortPair a b).2])] attrs]) := by
  refine ⟨?_, ?_, ?_, ?_, ?_⟩
  · intro g a b attrs
    unfold CreateGraph.Graph.add_edge
    rw [sortPair_comm a b]
    exact if_congr or_comm rfl rfl
  · intro g a b attrs g' old hnodup hok hold
    unfold CreateGraph.Graph.add_edge at hok
    split at hok
    · simp at hok
    · simp only [] at hok
      rw [hold] at hok
      simp only [Except.ok.injEq] at hok
      subst hok
      set base : AttrBag :=
        [("nodes", Val.list [.str (sortPair a b).1, .str (sortPair a b).2]),
         ("undirected", Val.bool true)] with hbase
      have hbasenodup : (dkeys base).Nodup := by simp [hbase, dkeys]
      have hpaynodup : (dkeys (dupdate base attrs)).Nodup :=
        dkeys_dupdate_nodup attrs hbasenodup
      refine ⟨dupdate old (dupdate base attrs), ?_, ?_, ?_, ?_⟩
      · rw [elookup_einsert]
        simp
      · intro k v hkv hkn hku
        rw [dlookup_dupdate_nodup _ hpaynodup,
          dlookup_dupdate_nodup _ hnodup, hkv]
      · intro k hk hkn hku
        rw [dlookup_dupdate_nodup _ hpaynodup,
          dlookup_dupdate_nodup _ hnodup, hk]
        have hb : dlookup base k = none := by
          simp [hbase, dlookup, hkn, hku, if_neg (fun h => hkn (Eq.symm h)),
            if_neg (fun h => hku (Eq.symm h))]
        rw [hb]
      · exact einsert_keys_of_mem hold _
  · intro gd a b attrs
    unfold GraphEditor.GraphData.upsert_edge GraphEditor.GraphData.find_edge_index
    rw [sortPair_comm a b]
  · intro gd a b attrs i h
    unfold GraphEditor.GraphData.upsert_edge
    rw [h]
  · intro gd a b attrs h
    unfold GraphEditor.GraphData.upsert_edge
    rw [h]

/-- Witness for C4 (amended): re-adding the fixture's A–B edge with a
`surface` attribute merges the bags — the stored edge keeps its old keys. -/
theorem C4_amended_witness :
    ∃ merged, CreateGraph.elookup cgFixtureMerged.edges (sortPair "A" "B") =
        some merged ∧
      (∀ k v, dlookup [(("surface" : String), Val.str "mud")] k = some v →
        k ≠ "nodes" → k ≠ "undirected" → dlookup merged k = some v) ∧
      (∀ k, dlookup [(("surface" : String), Val.str "mud")] k = none →
        k ≠ "nodes" → k ≠ "undirected" →
        dlookup merged k = dlookup
          [(("nodes" : String), Val.list [Val.str "A", Val.str "B"]),
           ("undirected", Val.bool true), ("route_type", Val.str "road")] k) ∧
      cgFixtureMerged.edges.map Prod.fst = cgFixture.edges.map Prod.fst := by
  have hAB : ("A" : String) ≤ "B" := by
    have h : (['A'] : List Char) ≤ ['B'] := by decide
    simpa using h
  exact C4_amended.2.1 cgFixture "A" "B" [("surface", Val.str "mud")]
    cgFixtureMerged
    [("nodes", Val.list [Val.str "A", Val.str "B"]),
     ("undirected", Val.bool true), ("route_type", Val.str "road")]
    (by simp [dkeys])
    (by simp [CreateGraph.Graph.add_edge, cgFixture, cgFixtureMerged, dmem,
      dlookup, sortPair, hAB, CreateGraph.elookup, CreateGraph.einsert,
      dupdate, dinsert])
    (by simp [cgFixture, CreateGraph.elookup, sortPair, hAB])

/-! ### C3: serialization round-trip -/

theorem exists_dlookup_of_mem {β : Type} {d : Dict β} {k : String}
    (h : k ∈ dkeys d) : ∃ v, dlookup d k = some v := by
  induction d with
  | nil => simp [dkeys] at h
  | cons p rest ih =>
    obtain ⟨pk, pv⟩ := p
    by_cases hp : pk = k
    · exact ⟨pv, by simp [dlookup, hp]⟩
    · simp only [dkeys, List.map_cons, List.mem_cons] at h
      rcases h with h | h
      · exact absurd h.symm hp
      · obtain ⟨v, hv⟩ := ih h
        exact ⟨v, by simp [dlookup, hp, hv]⟩

theorem dlookup_reverse_eq_none {β : Type} {d : Dict β} {k : String}
    (h : dlookup d k = none) : dlookup d.reverse k = none := by
  cases heq : dlookup d.reverse k with
  | none => rfl
  | some v =>
    have hmem : k ∈ dkeys d.reverse := mem_dkeys_of_dlookup heq
    have hmem' : k ∈ dkeys d := by
      simpa [dkeys, List.map_reverse] using hmem
    obtain ⟨w, hw⟩ := exists_dlookup_of_mem hmem'
    rw [hw] at h
    exact Option.noConfusion h

theorem dkeys_dremove_nodup {β : Type} {d : Dict β} {k : String}
    (h : (dkeys d).Nodup) : (dkeys (dremove d k)).Nodup := by
  have hsub : List.Sublist (dkeys (dremove d k)) (dkeys d) :=
    List.Sublist.map Prod.fst (List.filter_sublist d)
  exact List.Nodup.sublist hsub h

theorem dmem_dinsert_of_dmem {β : Type} {d : Dict β} {k' : String}
    (k : String) (v : β) (h : dmem d k' = true) :
    dmem (dinsert d k v) k' = true := by
  unfold dmem at h ⊢
  rw [dlookup_dinsert]
  split
  · rfl
  · exact h

theorem mem_emap_of_elookup {es : List ((String × String) × AttrBag)}
    {k : String × String} {v : AttrBag} (h : CreateGraph.elookup es k = some v) :
    k ∈ es.map Prod.fst := by
  induction es with
  | nil => simp [CreateGraph.elookup] at h
  | cons p rest ih =>
    obtain ⟨pk, pv⟩ := p
    by_cases hp : pk = k
    · simp [hp]
    · simp only [CreateGraph.elookup, hp, if_false] at h
      simp only [List.map_cons, List.mem_cons]
      exact Or.inr (ih h)

theorem elookup_eq_none_of_not_mem {es : List ((String × String) × AttrBag)}
    {k : String × String} (h : k ∉ es.map Prod.fst) :
    CreateGraph.elookup es k = none := by
  induction es with
  | nil => rfl
  | cons p rest ih =>
    obtain ⟨pk, pv⟩ := p
    simp only [List.map_cons, List.mem_cons, not_or] at h
    simp only [CreateGraph.elookup, if_neg (Ne.symm h.1)]
    exact ih h.2

theorem exists_elookup_of_mem {es : List ((String × String) × AttrBag)}
    {k : String × String} (h : k ∈ es.map Prod.fst) :
    ∃ v, CreateGraph.elookup es k = some v := by
  induction es with
  | nil => simp at h
  | cons p rest ih =>
    obtain ⟨pk, pv⟩ := p
    by_cases hp : pk = k
    · exact ⟨pv, by simp [CreateGraph.elookup, hp]⟩
    · simp only [List.map_cons, List.mem_cons] at h
      rcases h with h | h
      · exact absurd h.symm hp
      · obtain ⟨v, hv⟩ := ih h
        exact ⟨v, by simp [CreateGraph.elookup, hp, hv]⟩

theorem emap_einsert (es : List ((String × String) × AttrBag))
    (k : String × String) (v : AttrBag) :
    (CreateGraph.einsert es k v).map Prod.fst =
      if k ∈ es.map Prod.fst then es.map Prod.fst else es.map Prod.fst ++ [k] := by
  induction es with
  | nil => simp [CreateGraph.einsert]
  | cons p rest ih =>
    obtain ⟨pk, pv⟩ := p
    by_cases hp : pk = k
    · subst hp
      simp [CreateGraph.einsert]
    · have h1 : CreateGraph.einsert ((pk, pv) :: rest) k v =
          (pk, pv) :: CreateGraph.einsert rest k v := by
        simp [CreateGraph.einsert, hp]
      rw [h1]
      simp only [List.map_cons] at ih ⊢
      rw [ih]
      by_cases hk : k ∈ List.map Prod.fst rest
      · rw [if_pos hk, if_pos (List.mem_cons_of_mem _ hk)]
      · rw [if_neg hk, if_neg (by
          simp only [List.mem_cons, not_or]
          exact ⟨fun h => hp (Eq.symm h), hk⟩)]
        simp

theorem sortPair_fst_le_snd (a b : String) :
    (sortPair a b).1 ≤ (sortPair a b).2 := by
  unfold sortPair
  split
  · rename_i h
    exact h
  · rename_i h
    exact le_of_not_le h

theorem sortPair_of_le {a b : String} (h : a ≤ b) : sortPair a b = (a, b) := by
  unfold sortPair
  rw [if_pos h]

theorem graphInv_empty : CreateGraph.GraphInv CreateGraph.Graph.empty := by
  refine ⟨by simp [dkeys, CreateGraph.Graph.empty], by simp [CreateGraph.Graph.empty],
    ?_, ?_⟩
  · intro k bag hbag
    simp [CreateGraph.Graph.empty, dlookup] at hbag
  · intro a b bag hbag
    simp [CreateGraph.Graph.empty, CreateGraph.elookup] at hbag

theorem graphInv_add_node {g : CreateGraph.Graph} (hg : CreateGraph.GraphInv g)
    (nid : String) {attrs : AttrBag} (hid : dlookup attrs "id" = none) :
    CreateGraph.GraphInv (g.add_node nid attrs) := by
  obtain ⟨hN, hE, hNP, hEP⟩ := hg
  have hpl_id : dlookup (dupdate [("id", Val.str nid)] attrs) "id" =
      some (Val.str nid) := by
    rw [dlookup_dupdate, dlookup_reverse_eq_none hid]
    simp [dlookup]
  have hpl_nd : (dkeys (dupdate [("id", Val.str nid)] attrs)).Nodup :=
    dkeys_dupdate_nodup attrs (by simp [dkeys])
  unfold CreateGraph.Graph.add_node
  simp only []
  cases hex : dlookup g.nodes nid with
  | some existing =>
    refine ⟨dkeys_dinsert_nodup _ _ hN, hE, ?_, ?_⟩
    · intro k bag hbag
      rw [dlookup_dinsert] at hbag
      by_cases hk : nid = k
      · rw [if_pos hk] at hbag
        subst hk
        obtain rfl : dupdate existing (dupdate [("id", Val.str nid)] attrs) = bag :=
          Option.some.inj hbag
        constructor
        · rw [dlookup_dupdate, dlookup_reverse_of_nodup hpl_nd, hpl_id]
        · exact dkeys_dupdate_nodup _ (hNP nid existing hex).2
      · rw [if_neg hk] at hbag
        exact hNP k bag hbag
    · intro a b bag hbag
      obtain ⟨h1, h2, h3, h4, h5, h6, h7, h8⟩ := hEP a b bag hbag
      exact ⟨h1, h2, h3, h4, h5, h6, dmem_dinsert_of_dmem _ _ h7,
        dmem_dinsert_of_dmem _ _ h8⟩
  | none =>
    refine ⟨dkeys_dinsert_nodup _ _ hN, hE, ?_, ?_⟩
    · intro k bag hbag
      rw [dlookup_dinsert] at hbag
      by_cases hk : nid = k
      · rw [if_pos hk] at hbag
        subst hk
        obtain rfl : dupdate [("id", Val.str nid)] attrs = bag :=
          Option.some.inj hbag
        exact ⟨hpl_id, hpl_nd⟩
      · rw [if_neg hk] at hbag
        exact hNP k bag hbag
    · intro a b bag hbag
      obtain ⟨h1, h2, h3, h4, h5, h6, h7, h8⟩ := hEP a b bag hbag
      exact ⟨h1, h2, h3, h4, h5, h6, dmem_dinsert_of_dmem _ _ h7,
        dmem_dinsert_of_dmem _ _ h8⟩

theorem graphInv_add_edge {g g' : CreateGraph.Graph}
    (hg : CreateGraph.GraphInv g) {s t : String} {attrs : AttrBag}
    (hok : g.add_edge s t attrs = .ok g')
    (hno : dlookup attrs "nodes" = none) (hso : dlookup attrs "source" = none)
    (hta : dlookup attrs "target" = none) : CreateGraph.GraphInv g' := by
  obtain ⟨hN, hE, hNP, hEP⟩ := hg
  unfold CreateGraph.Graph.add_edge at hok
  split at hok
  · exact Except.noConfusion hok
  · rename_i hcond
    push_neg at hcond
    obtain ⟨hs, ht⟩ := hcond
    simp only [] at hok
    have hkey12 : dmem g.nodes (sortPair s t).1 = true ∧
        dmem g.nodes (sortPair s t).2 = true := by
      rcases le_total s t with hle | hle
      · rw [sortPair_of_le hle]
        exact ⟨hs, ht⟩
      · rw [sortPair_comm, sortPair_of_le hle]
        exact ⟨ht, hs⟩
    set key := sortPair s t with hkeydef
    set base : AttrBag :=
      [("nodes", Val.list [.str key.1, .str key.2]),
       ("undirected", Val.bool true)] with hbase
    have hbasend : (dkeys base).Nodup := by simp [hbase, dkeys]
    have hpl_nd : (dkeys (dupdate base attrs)).Nodup :=
      dkeys_dupdate_nodup attrs hbasend
    have hpl_nodes : dlookup (dupdate base attrs) "nodes" =
        some (Val.list [.str key.1, .str key.2]) := by
      rw [dlookup_dupdate, dlookup_reverse_eq_none hno]
      simp [hbase, dlookup]
    have hpl_src : dlookup (dupdate base attrs) "source" = none := by
      rw [dlookup_dupdate, dlookup_reverse_eq_none hso]
      simp [hbase, dlookup]
    have hpl_tgt : dlookup (dupdate base attrs) "target" = none := by
      rw [dlookup_dupdate, dlookup_reverse_eq_none hta]
      simp [hbase, dlookup]
    have hpl_und : (dlookup (dupdate base attrs) "undirected").isSome = true := by
      rw [dlookup_dupdate]
      cases hrev : dlookup attrs.reverse "undirected" with
      | some v => simp
      | none => simp [hbase, dlookup]
    cases hex : CreateGraph.elookup g.edges key with
    | some existing =>
      rw [hex] at hok
      obtain rfl : { g with edges :=
          CreateGraph.einsert g.edges key (dupdate existing (dupdate base attrs)) } = g' :=
        Except.ok.inj hok
      obtain ⟨e1, e2, e3, e4, e5, e6, e7, e8⟩ :=
        hEP key.1 key.2 existing (by rw [← hex])
      refine ⟨hN, ?_, hNP, ?_⟩
      · simp only []
        rw [einsert_keys_of_mem hex]
        exact hE
      · intro a b bag hbag
        simp only [] at hbag
        rw [elookup_einsert] at hbag
        by_cases hk : key = (a, b)
        · rw [if_pos hk] at hbag
          obtain rfl : dupdate existing (dupdate base attrs) = bag :=
            Option.some.inj hbag
          have hmerge_nd : (dkeys existing).Nodup := e6
          refine ⟨?_, ?_, ?_, ?_, ?_, dkeys_dupdate_nodup _ hmerge_nd, ?_, ?_⟩
          · have := sortPair_fst_le_snd s t
            rw [← hkeydef, hk] at this
            exact this
          · rw [dlookup_dupdate, dlookup_reverse_of_nodup hpl_nd, hpl_nodes, hk]
          · rw [dlookup_dupdate, dlookup_reverse_of_nodup hpl_nd, hpl_src, e3]
          · rw [dlookup_dupdate, dlookup_reverse_of_nodup hpl_nd, hpl_tgt, e4]
          · rw [dlookup_dupdate, dlookup_reverse_of_nodup hpl_nd]
            obtain ⟨u, hu⟩ := Option.isSome_iff_exists.mp hpl_und
            rw [hu]
            simp
          · have := hkey12.1
            rw [hk] at this
            exact this
          · have := hkey12.2
            rw [hk] at this
            exact this
        · rw [if_neg hk] at hbag
          exact hEP a b bag hbag
    | none =>
      rw [hex] at hok
      obtain rfl : { g with edges :=
          CreateGraph.einsert g.edges key (dupdate base attrs) } = g' :=
        Except.ok.inj hok
      have hkeynotmem : key ∉ g.edges.map Prod.fst := by
        intro hmem
        obtain ⟨v, hv⟩ := exists_elookup_of_mem hmem
        rw [hv] at hex
        exact Option.noConfusion hex
      refine ⟨hN, ?_, hNP, ?_⟩
      · simp only []
        rw [emap_einsert, if_neg hkeynotmem]
        refine List.Nodup.append hE (List.nodup_singleton _) ?_
        intro x hx hx2
        rw [List.mem_singleton] at hx2
        subst hx2
        exact hkeynotmem hx
      · intro a b bag hbag
        simp only [] at hbag
        rw [elookup_einsert] at hbag
        by_cases hk : key = (a, b)
        · rw [if_pos hk] at hbag
          obtain rfl : dupdate base attrs = bag := Option.some.inj hbag
          refine ⟨?_, ?_, hpl_src, hpl_tgt, hpl_und, hpl_nd, ?_, ?_⟩
          · have := sortPair_fst_le_snd s t
            rw [← hkeydef, hk] at this
            exact this
          · rw [hpl_nodes, hk]
          · have := hkey12.1
            rw [hk] at this
            exact this
          · have := hkey12.2
            rw [hk] at this
            exact this
        · rw [if_neg hk] at hbag
          exact hEP a b bag hbag

theorem builtTame_graphInv {g : CreateGraph.Graph}
    (h : CreateGraph.BuiltTame g) : CreateGraph.GraphInv g := by
  induction h with
  | empty => exact graphInv_empty
  | addNode nid attrs hid _ ih => exact graphInv_add_node ih nid hid
  | addEdge s t attrs hno hso hta _ hok ih =>
    exact graphInv_add_edge ih hok hno hso hta

theorem from_dict_nodes_fold (g : CreateGraph.Graph)
    (hNP : ∀ k bag, dlookup g.nodes k = some bag →
      dlookup bag "id" = some (Val.str k) ∧ (dkeys bag).Nodup) :
    ∀ (ks : List String), ks.Nodup →
      (∀ k ∈ ks, k ∈ dkeys g.nodes) →
      ∀ (gacc : CreateGraph.Graph), (∀ k ∈ ks, dlookup gacc.nodes k = none) →
      ∃ gres,
        (ks.map (fun k => (dlookup g.nodes k).getD [])).foldlM
            CreateGraph.Graph.from_dict_node_step gacc = .ok gres ∧
        gres.edges = gacc.edges ∧
        (∀ k, k ∉ ks → dlookup gres.nodes k = dlookup gacc.nodes k) ∧
        (∀ k ∈ ks, ∃ bag, dlookup g.nodes k = some bag ∧
          dlookup gres.nodes k =
            some (dupdate [("id", Val.str k)] (dremove bag "id"))) := by
  intro ks
  induction ks with
  | nil =>
    intro _ _ gacc _
    exact ⟨gacc, by rw [List.map_nil]; rfl, rfl,
      fun k _ => rfl, by simp⟩
  | cons k ks' ih =>
    intro hnd hmem gacc hacc
    have hndc := List.nodup_cons.mp hnd
    obtain ⟨bag, hbag⟩ := exists_dlookup_of_mem (hmem k (List.mem_cons_self k ks'))
    have hid := (hNP k bag hbag).1
    have hfk : ((dlookup g.nodes k).getD [] : AttrBag) = bag := by
      rw [hbag]
      rfl
    have hstep : CreateGraph.Graph.from_dict_node_step gacc bag =
        .ok (gacc.add_node k (dremove bag "id")) := by
      unfold CreateGraph.Graph.from_dict_node_step
      rw [hid]
      rfl
    have hlook := hacc k (List.mem_cons_self k ks')
    set pay : AttrBag := dupdate [("id", Val.str k)] (dremove bag "id") with hpay
    have hadd : gacc.add_node k (dremove bag "id") =
        { gacc with nodes := dinsert gacc.nodes k pay } := by
      unfold CreateGraph.Graph.add_node
      rw [hlook]
    have hacc' : ∀ k' ∈ ks',
        dlookup (gacc.add_node k (dremove bag "id")).nodes k' = none := by
      intro k' hk'
      rw [hadd]
      simp only []
      rw [dlookup_dinsert, if_neg (fun h => hndc.1 (by rw [h]; exact hk'))]
      exact hacc k' (List.mem_cons_of_mem _ hk')
    obtain ⟨gres, hres, hedges, hout, hin⟩ :=
      ih hndc.2 (fun k' hk' => hmem k' (List.mem_cons_of_mem _ hk'))
        (gacc.add_node k (dremove bag "id")) hacc'
    refine ⟨gres, ?_, ?_, ?_, ?_⟩
    · rw [List.map_cons, List.foldlM_cons]
      simp only [hfk, hstep]
      exact hres
    · rw [hedges, hadd]
    · intro k₀ hk₀
      rw [List.mem_cons, not_or] at hk₀
      rw [hout k₀ hk₀.2, hadd]
      simp only []
      rw [dlookup_dinsert, if_neg (fun h => hk₀.1 h.symm)]
    · intro k₀ hk₀
      rcases List.mem_cons.mp hk₀ with hk₀ | hk₀
      · subst hk₀
        refine ⟨bag, hbag, ?_⟩
        rw [hout k₀ hndc.1, hadd]
        simp only []
        rw [dlookup_dinsert, if_pos rfl]
      · exact hin k₀ hk₀

theorem from_dict_edges_fold (g : CreateGraph.Graph)
    (hEP : ∀ a b bag, CreateGraph.elookup g.edges (a, b) = some bag →
      a ≤ b ∧ dlookup bag "nodes" = some (Val.list [Val.str a, Val.str b])) :
    ∀ (eks : List (String × String)), eks.Nodup →
      (∀ e ∈ eks, e ∈ g.edges.map Prod.fst) →
      ∀ (gacc : CreateGraph.Graph),
        (∀ e ∈ eks, CreateGraph.elookup gacc.edges e = none) →
        (∀ e ∈ eks, dmem gacc.nodes e.1 = true ∧ dmem gacc.nodes e.2 = true) →
      ∃ gres,
        (eks.map (fun e => (CreateGraph.elookup g.edges e).getD [])).foldlM
            CreateGraph.Graph.from_dict_edge_step gacc = .ok gres ∧
        gres.nodes = gacc.nodes ∧
        (∀ e, e ∉ eks → CreateGraph.elookup gres.edges e =
          CreateGraph.elookup gacc.edges e) ∧
        (∀ e ∈ eks, ∃ bag, CreateGraph.elookup g.edges e = some bag ∧
          CreateGraph.elookup gres.edges e = some (dupdate
            [("nodes", Val.list [Val.str e.1, Val.str e.2]),
             ("undirected", Val.bool true)]
            (dremove (dremove (dremove bag "nodes") "source") "target"))) := by
  intro eks
  induction eks with
  | nil =>
    intro _ _ gacc _ _
    exact ⟨gacc, by rw [List.map_nil]; rfl, rfl,
      fun e _ => rfl, by simp⟩
  | cons e eks' ih =>
    intro hnd hmem gacc hacc hmemN
    obtain ⟨a, b⟩ := e
    have hndc := List.nodup_cons.mp hnd
    obtain ⟨bag, hbag⟩ :=
      exists_elookup_of_mem (hmem (a, b) (List.mem_cons_self _ eks'))
    obtain ⟨hab, hnodes⟩ := hEP a b bag hbag
    obtain ⟨hma, hmb⟩ := hmemN (a, b) (List.mem_cons_self _ eks')
    have hfk : ((CreateGraph.elookup g.edges (a, b)).getD [] : AttrBag) = bag := by
      rw [hbag]
      rfl
    have hends : CreateGraph.edgeEndpoints bag = .ok (a, b) := by
      unfold CreateGraph.edgeEndpoints
      rw [hnodes]
    have hstep : CreateGraph.Graph.from_dict_edge_step gacc bag =
        gacc.add_edge a b
          (dremove (dremove (dremove bag "nodes") "source") "target") := by
      unfold CreateGraph.Graph.from_dict_edge_step
      rw [hends]
      rfl
    have hlook := hacc (a, b) (List.mem_cons_self _ eks')
    set epay : AttrBag :=
      dupdate [("nodes", Val.list [Val.str a, Val.str b]),
               ("undirected", Val.bool true)]
        (dremove (dremove (dremove bag "nodes") "source") "target") with hepay
    have hadd : gacc.add_edge a b
        (dremove (dremove (dremove bag "nodes") "source") "target") =
        .ok { gacc with edges := CreateGraph.einsert gacc.edges (a, b) epay } := by
      unfold CreateGraph.Graph.add_edge
      rw [if_neg (by push_neg; exact ⟨hma, hmb⟩)]
      simp only []
      rw [sortPair_of_le hab, hlook]
    set gacc' : CreateGraph.Graph :=
      { gacc with edges := CreateGraph.einsert gacc.edges (a, b) epay }
      with hgacc'
    have hacc'1 : ∀ e' ∈ eks', CreateGraph.elookup gacc'.edges e' = none := by
      intro e' he'
      rw [hgacc']
      simp only []
      rw [elookup_einsert, if_neg (fun h => hndc.1 (by rw [h]; exact he'))]
      exact hacc e' (List.mem_cons_of_mem _ he')
    have hacc'2 : ∀ e' ∈ eks',
        dmem gacc'.nodes e'.1 = true ∧ dmem gacc'.nodes e'.2 = true := by
      intro e' he'
      exact hmemN e' (List.mem_cons_of_mem _ he')
    obtain ⟨gres, hres, hnodesEq, hout, hin⟩ :=
      ih hndc.2 (fun e' he' => hmem e' (List.mem_cons_of_mem _ he')) gacc'
        hacc'1 hacc'2
    refine ⟨gres, ?_, ?_, ?_, ?_⟩
    · rw [List.map_cons, List.foldlM_cons]
      simp only [hfk, hstep, hadd]
      exact hres
    · rw [hnodesEq, hgacc']
    · intro e₀ he₀
      rw [List.mem_cons, not_or] at he₀
      rw [hout e₀ he₀.2, hgacc']
      simp only []
      rw [elookup_einsert, if_neg (fun h => he₀.1 h.symm)]
    · intro e₀ he₀
      rcases List.mem_cons.mp he₀ with he₀ | he₀
      · subst he₀
        refine ⟨bag, hbag, ?_⟩
        rw [hout _ hndc.1, hgacc']
        simp only []
        rw [elookup_einsert, if_pos rfl]
      · exact hin e₀ he₀

theorem node_roundtrip_bag_equiv {bag : AttrBag} {k : String}
    (hid : dlookup bag "id" = some (Val.str k)) (hnd : (dkeys bag).Nodup) :
    bagEquiv (dupdate [("id", Val.str k)] (dremove bag "id")) bag := by
  intro key
  have hremnd : (dkeys (dremove bag "id")).Nodup := dkeys_dremove_nodup hnd
  rw [dlookup_dupdate_nodup _ hremnd, dlookup_dremove]
  by_cases hk : "id" = key
  · rw [if_pos hk]
    subst hk
    simp [dlookup, hid]
  · rw [if_neg hk]
    cases hbk : dlookup bag key with
    | some v => rfl
    | none => simp [dlookup, hk]

theorem edge_roundtrip_bag_equiv {bag : AttrBag} {a b : String}
    (hnodes : dlookup bag "nodes" = some (Val.list [Val.str a, Val.str b]))
    (hsrc : dlookup bag "source" = none) (htgt : dlookup bag "target" = none)
    (hund : (dlookup bag "undirected").isSome = true)
    (hnd : (dkeys bag).Nodup) :
    bagEquiv
      (dupdate [("nodes", Val.list [Val.str a, Val.str b]),
                ("undirected", Val.bool true)]
        (dremove (dremove (dremove bag "nodes") "source") "target")) bag := by
  intro key
  have h1 : (dkeys (dremove bag "nodes")).Nodup := dkeys_dremove_nodup hnd
  have h2 : (dkeys (dremove (dremove bag "nodes") "source")).Nodup :=
    dkeys_dremove_nodup h1
  have h3 :
      (dkeys (dremove (dremove (dremove bag "nodes") "source") "target")).Nodup :=
    dkeys_dremove_nodup h2
  rw [dlookup_dupdate_nodup _ h3, dlookup_dremove, dlookup_dremove,
    dlookup_dremove]
  by_cases hkt : "target" = key
  · rw [if_pos hkt]
    subst hkt
    simp [dlookup, htgt]
  · rw [if_neg hkt]
    by_cases hks : "source" = key
    · rw [if_pos hks]
      subst hks
      simp [dlookup, hsrc]
    · rw [if_neg hks]
      by_cases hkn : "nodes" = key
      · rw [if_pos hkn]
        subst hkn
        simp [dlookup, hnodes]
      · rw [if_neg hkn]
        by_cases hku : "undirected" = key
        · subst hku
          obtain ⟨u, hu⟩ := Option.isSome_iff_exists.mp hund
          rw [hu]
        · cases hbk : dlookup bag key with
          | some v => rfl
          | none => simp [dlookup, hkn, hku]

/-- C3 (counterexample): the round-trip claim fails for graphs whose
`add_node` keyword attributes rebind `"id"`.  `Graph().add_node("X",
id="Y")` (a legal `Built` construction) stores the bag `{"id": "Y"}` under
node key `"X"`, but `from_dict(to_dict(g))` re-keys the node by its bag's
`"id"` and yields a graph whose node collection has key `"Y"` and no key
`"X"` — the node collections are not identical even ignoring key
ordering. -/
theorem C3_counterexample :
    CreateGraph.Built cgBadId ∧
    dlookup cgBadId.nodes "X" = some [("id", Val.str "Y")] ∧
    CreateGraph.Graph.from_dict cgBadId.to_dict =
      .ok { nodes := [("Y", [("id", Val.str "Y")])], edges := [] } ∧
    ¬ CreateGraph.obagEquiv
        (dlookup ({ nodes := [("Y", [("id", Val.str "Y")])], edges := [] } :
          CreateGraph.Graph).nodes "X")
        (dlookup cgBadId.nodes "X") := by
  refine ⟨CreateGraph.Built.addNode "X" _ CreateGraph.Built.empty, ?_, ?_, ?_⟩
  · simp [cgBadId, CreateGraph.Graph.add_node, CreateGraph.Graph.empty,
      dupdate, dinsert, dlookup]
  · simp only [cgBadId, CreateGraph.Graph.add_node, CreateGraph.Graph.empty,
      CreateGraph.Graph.from_dict, CreateGraph.Graph.to_dict,
      CreateGraph.Graph.from_dict_node_step,
      CreateGraph.Graph.from_dict_edge_step,
      dupdate, dinsert, dlookup, dremove, dkeys]
    simp
    rfl
  · simp [CreateGraph.obagEquiv, cgBadId, CreateGraph.Graph.add_node,
      CreateGraph.Graph.empty, dupdate, dinsert, dlookup]

/-- C3 (amended): for every graph built by `add_node`/`add_edge` calls whose
keyword attributes avoid the payload's reserved keys (node attrs never
rebind `"id"`; edge attrs never pass `"nodes"`, `"source"` or `"target"`),
`from_dict(to_dict(g))` succeeds and yields a graph whose node collection
and edge collection carry attribute bags identical to those of `g`,
ignoring key ordering: every node key and every sorted-pair edge key looks
up to an equivalent bag on both sides, and keys absent on one side are
absent on the other. -/
theorem C3_amended (g : CreateGraph.Graph) (h : CreateGraph.BuiltTame g) :
    ∃ g', CreateGraph.Graph.from_dict g.to_dict = .ok g' ∧
      (∀ k, CreateGraph.obagEquiv (dlookup g'.nodes k) (dlookup g.nodes k)) ∧
      (∀ e, CreateGraph.obagEquiv (CreateGraph.elookup g'.edges e)
        (CreateGraph.elookup g.edges e)) := by
  obtain ⟨hN, hE, hNP, hEP⟩ := builtTame_graphInv h
  have hksperm : ((dkeys g.nodes).mergeSort CreateGraph.strLe).Perm
      (dkeys g.nodes) := List.mergeSort_perm _ _
  have hksnd : ((dkeys g.nodes).mergeSort CreateGraph.strLe).Nodup :=
    (List.Perm.nodup_iff hksperm).mpr hN
  have hksmem : ∀ k, k ∈ (dkeys g.nodes).mergeSort CreateGraph.strLe ↔
      k ∈ dkeys g.nodes := fun k => hksperm.mem_iff
  obtain ⟨gn, hgn, hgnE, hgnOut, hgnIn⟩ :=
    from_dict_nodes_fold g hNP ((dkeys g.nodes).mergeSort CreateGraph.strLe)
      hksnd (fun k hk => (hksmem k).mp hk)
      CreateGraph.Graph.empty (fun k _ => rfl)
  have heksperm : ((g.edges.map Prod.fst).mergeSort CreateGraph.pairLe).Perm
      (g.edges.map Prod.fst) := List.mergeSort_perm _ _
  have heksnd : ((g.edges.map Prod.fst).mergeSort CreateGraph.pairLe).Nodup :=
    (List.Perm.nodup_iff heksperm).mpr hE
  have heksmem : ∀ e, e ∈ (g.edges.map Prod.fst).mergeSort CreateGraph.pairLe ↔
      e ∈ g.edges.map Prod.fst := fun e => heksperm.mem_iff
  have hnodesOfG : ∀ x, dmem g.nodes x = true →
      (dlookup gn.nodes x).isSome = true := by
    intro x hx
    obtain ⟨v, hv⟩ := Option.isSome_iff_exists.mp hx
    obtain ⟨bag, _, hres⟩ :=
      hgnIn x ((hksmem x).mpr (mem_dkeys_of_dlookup hv))
    rw [hres]
    rfl
  obtain ⟨gf, hgf, hgfN, hgfOut, hgfIn⟩ :=
    from_dict_edges_fold g
      (fun a b bag hbag => ⟨(hEP a b bag hbag).1, (hEP a b bag hbag).2.1⟩)
      ((g.edges.map Prod.fst).mergeSort CreateGraph.pairLe)
      heksnd (fun e he => (heksmem e).mp he) gn
      (fun e _ => by rw [hgnE]; rfl)
      (fun e he => by
        obtain ⟨a, b⟩ := e
        obtain ⟨bag, hbag⟩ := exists_elookup_of_mem ((heksmem _).mp he)
        obtain ⟨_, _, _, _, _, _, hma, hmb⟩ := hEP a b bag hbag
        exact ⟨hnodesOfG a hma, hnodesOfG b hmb⟩)
  have hsplit : CreateGraph.Graph.from_dict g.to_dict =
      (((dkeys g.nodes).mergeSort CreateGraph.strLe).map
          (fun k => (dlookup g.nodes k).getD [])).foldlM
          CreateGraph.Graph.from_dict_node_step CreateGraph.Graph.empty >>=
        fun g0 =>
          (((g.edges.map Prod.fst).mergeSort CreateGraph.pairLe).map
              (fun e => (CreateGraph.elookup g.edges e).getD [])).foldlM
            CreateGraph.Graph.from_dict_edge_step g0 := rfl
  refine ⟨gf, ?_, ?_, ?_⟩
  · rw [hsplit, hgn]
    exact hgf
  · intro k
    by_cases hk : k ∈ dkeys g.nodes
    · obtain ⟨bag, hbag, hres⟩ := hgnIn k ((hksmem k).mpr hk)
      rw [hgfN, hres, hbag]
      exact node_roundtrip_bag_equiv (hNP k bag hbag).1 (hNP k bag hbag).2
    · have hnone : dlookup g.nodes k = none := dlookup_eq_none_of_not_mem hk
      have hout := hgnOut k (fun hmem => hk ((hksmem k).mp hmem))
      rw [hgfN, hout, hnone]
      trivial
  · intro e
    obtain ⟨a, b⟩ := e
    by_cases he : (a, b) ∈ g.edges.map Prod.fst
    · obtain ⟨bag, hbag, hres⟩ := hgfIn (a, b) ((heksmem _).mpr he)
      rw [hres, hbag]
      obtain ⟨_, hnodes, hsrc, htgt, hund, hbnd, _, _⟩ := hEP a b bag hbag
      exact edge_roundtrip_bag_equiv hnodes hsrc htgt hund hbnd
    · have hnone : CreateGraph.elookup g.edges (a, b) = none :=
        elookup_eq_none_of_not_mem he
      have hout := hgfOut (a, b) (fun hmem => he ((heksmem _).mp hmem))
      rw [hout, hgnE, hnone]
      trivial

/-- Witness for C3 (amended): the round trip on the two-node one-edge
fixture graph succeeds and preserves every node and edge bag. -/
theorem C3_amended_witness :
    ∃ g', CreateGraph.Graph.from_dict cgFixture.to_dict = .ok g' ∧
      (∀ k, CreateGraph.obagEquiv (dlookup g'.nodes k)
        (dlookup cgFixture.nodes k)) ∧
      (∀ e, CreateGraph.obagEquiv (CreateGraph.elookup g'.edges e)
        (CreateGraph.elookup cgFixture.edges e)) :=
  C3_amended cgFixture (by
    have hAB : ("A" : String) ≤ "B" := by
      have h : (['A'] : List Char) ≤ ['B'] := by decide
      simpa using h
    have h1 : CreateGraph.BuiltTame (CreateGraph.Graph.empty.add_node "A" []) :=
      CreateGraph.BuiltTame.addNode "A" [] rfl CreateGraph.BuiltTame.empty
    have h2 : CreateGraph.BuiltTame
        ((CreateGraph.Graph.empty.add_node "A" []).add_node "B" []) :=
      CreateGraph.BuiltTame.addNode "B" [] rfl h1
    exact CreateGraph.BuiltTame.addEdge "A" "B" [("route_type", Val.str "road")]
      rfl rfl rfl h2 (by
        simp [CreateGraph.Graph.add_edge, CreateGraph.Graph.add_node,
          CreateGraph.Graph.empty, dmem, dlookup, sortPair, hAB,
          CreateGraph.elookup, CreateGraph.einsert, dupdate, dinsert,
          cgFixture]))

/-! ### C1/C5: the Dijkstra router -/

theorem heapMin_mem {h : List (ℚ × String)} {m : ℚ × String}
    (hm : heapMin h = some m) : m ∈ h := by
  induction h generalizing m with
  | nil => exact Option.noConfusion hm
  | cons e rest ih =>
    simp only [heapMin] at hm
    cases hrest : heapMin rest with
    | none =>
      rw [hrest] at hm
      obtain rfl := Option.some.inj hm
      exact List.mem_cons_self _ _
    | some m' =>
      rw [hrest] at hm
      obtain rfl := Option.some.inj hm
      by_cases hle : entryLe e m' = true
      · rw [if_pos hle]
        exact List.mem_cons_self _ _
      · rw [if_neg hle]
        exact List.mem_cons_of_mem _ (ih hrest)

theorem entryLe_true_iff (e₁ e₂ : ℚ × String) :
    entryLe e₁ e₂ = true ↔ e₁.1 < e₂.1 ∨ (e₁.1 = e₂.1 ∧ e₁.2 ≤ e₂.2) := by
  unfold entryLe
  simp [Bool.or_eq_true, Bool.and_eq_true]

theorem entryLe_fst_le {e₁ e₂ : ℚ × String} (h : entryLe e₁ e₂ = true) :
    e₁.1 ≤ e₂.1 := by
  rcases (entryLe_true_iff e₁ e₂).mp h with h | h
  · exact le_of_lt h
  · exact le_of_eq h.1

theorem entryLe_total (e₁ e₂ : ℚ × String) :
    entryLe e₁ e₂ = true ∨ entryLe e₂ e₁ = true := by
  rcases lt_trichotomy e₁.1 e₂.1 with h | h | h
  · exact Or.inl ((entryLe_true_iff _ _).mpr (Or.inl h))
  · rcases le_total e₁.2 e₂.2 with h2 | h2
    · exact Or.inl ((entryLe_true_iff _ _).mpr (Or.inr ⟨h, h2⟩))
    · exact Or.inr ((entryLe_true_iff _ _).mpr (Or.inr ⟨h.symm, h2⟩))
  · exact Or.inr ((entryLe_true_iff _ _).mpr (Or.inl h))

theorem heapMin_eq_none_iff (h : List (ℚ × String)) :
    heapMin h = none ↔ h = [] := by
  cases h with
  | nil => simp [heapMin]
  | cons e rest =>
    simp only [heapMin]
    cases hrest : heapMin rest with
    | none => simp
    | some m => simp

theorem heapMin_le {h : List (ℚ × String)} {m : ℚ × String}
    (hm : heapMin h = some m) : ∀ e ∈ h, m.1 ≤ e.1 := by
  induction h generalizing m with
  | nil => exact fun e he => absurd he (List.not_mem_nil e)
  | cons e₀ rest ih =>
    simp only [heapMin] at hm
    intro e he
    cases hrest : heapMin rest with
    | none =>
      rw [hrest] at hm
      obtain rfl : e₀ = m := Option.some.inj hm
      have hnil : rest = [] := (heapMin_eq_none_iff rest).mp hrest
      subst hnil
      rcases List.mem_cons.mp he with rfl | he
      · exact le_refl _
      · exact absurd he (List.not_mem_nil e)
    | some m' =>
      rw [hrest] at hm
      obtain rfl : (if entryLe e₀ m' = true then e₀ else m') = m :=
        Option.some.inj hm
      rcases List.mem_cons.mp he with heq | he
      · rw [heq]
        by_cases hle : entryLe e₀ m' = true
        · rw [if_pos hle]
        · rw [if_neg hle]
          rcases entryLe_total e₀ m' with h1 | h1
          · exact absurd h1 hle
          · exact entryLe_fst_le h1
      · by_cases hle : entryLe e₀ m' = true
        · rw [if_pos hle]
          exact le_trans (entryLe_fst_le hle) (ih hrest e he)
        · rw [if_neg hle]
          exact ih hrest e he

theorem mem_of_mem_removeFirst {h : List (ℚ × String)} {x e : ℚ × String}
    (hm : e ∈ removeFirst h x) : e ∈ h := by
  induction h with
  | nil => exact absurd hm (List.not_mem_nil e)
  | cons f rest ih =>
    simp only [removeFirst] at hm
    by_cases hf : f = x
    · rw [if_pos hf] at hm
      exact List.mem_cons_of_mem _ hm
    · rw [if_neg hf] at hm
      rcases List.mem_cons.mp hm with rfl | hm
      · exact List.mem_cons_self _ _
      · exact List.mem_cons_of_mem _ (ih hm)

theorem mem_removeFirst_of_ne {h : List (ℚ × String)} {x e : ℚ × String}
    (hm : e ∈ h) (hne : e ≠ x) : e ∈ removeFirst h x := by
  induction h with
  | nil => exact absurd hm (List.not_mem_nil e)
  | cons f rest ih =>
    simp only [removeFirst]
    by_cases hf : f = x
    · rw [if_pos hf]
      rcases List.mem_cons.mp hm with rfl | hm
      · exact absurd hf hne
      · exact hm
    · rw [if_neg hf]
      rcases List.mem_cons.mp hm with rfl | hm
      · exact List.mem_cons_self _ _
      · exact List.mem_cons_of_mem _ (ih hm)

theorem length_removeFirst_of_mem {h : List (ℚ × String)} {x : ℚ × String}
    (hm : x ∈ h) : (removeFirst h x).length + 1 = h.length := by
  induction h with
  | nil => exact absurd hm (List.not_mem_nil x)
  | cons f rest ih =>
    simp only [removeFirst]
    by_cases hf : f = x
    · rw [if_pos hf]
      simp
    · rw [if_neg hf]
      rcases List.mem_cons.mp hm with rfl | hm
      · exact absurd rfl hf
      · simp only [List.length_cons]
        rw [ih hm]

theorem heapPop_eq_some {h : List (ℚ × String)} {m : ℚ × String}
    {h' : List (ℚ × String)} (hp : heapPop h = some (m, h')) :
    heapMin h = some m ∧ h' = removeFirst h m := by
  unfold heapPop at hp
  cases hm : heapMin h with
  | none =>
    rw [hm] at hp
    exact Option.noConfusion hp
  | some m₀ =>
    rw [hm] at hp
    have hp' : (m₀, removeFirst h m₀) = (m, h') := Option.some.inj hp
    have h1 : m₀ = m := congrArg Prod.fst hp'
    have h2 : removeFirst h m₀ = h' := congrArg Prod.snd hp'
    subst h1
    exact ⟨rfl, h2.symm⟩

theorem entryWeight_of_wf {adj : Adj} (hwf : wfAdjB adj = true) {u v : String}
    {attrs : AttrBag} (hm : (v, attrs) ∈ adjGet adj u) :
    ∃ w, entryWeight attrs = some w ∧ 0 ≤ w := by
  obtain ⟨⟨b, hb, hb0⟩, ⟨dq, hd, hd0⟩⟩ := wfAdjB_spec hwf hm
  refine ⟨b * dq, ?_, mul_nonneg hb0 hd0⟩
  unfold entryWeight
  rw [hb, hd]
  rfl

theorem WalkFrom.snoc {adj : Adj} {u v : String} {c : ℚ}
    (hw : WalkFrom adj u v c) :
    ∀ {x : String} {attrs : AttrBag} {w : ℚ},
      (x, attrs) ∈ adjGet adj v → entryWeight attrs = some w →
      WalkFrom adj u x (c + w) := by
  induction hw with
  | nil y =>
    intro x attrs w he hew
    have h := WalkFrom.cons he hew (WalkFrom.nil x)
    have harith : w + 0 = 0 + w := by ring
    rw [harith] at h
    exact h
  | @cons u₀ v₀ x₀ attrs₀ w₀ c₀ he' hew' hrest ih =>
    intro x attrs w he hew
    have h := WalkFrom.cons he' hew' (ih he hew)
    have harith : w₀ + (c₀ + w) = w₀ + c₀ + w := by ring
    rw [harith] at h
    exact h

theorem walk_cost_nonneg {adj : Adj} (hwf : wfAdjB adj = true) {u x : String}
    {c : ℚ} (hw : WalkFrom adj u x c) : 0 ≤ c := by
  induction hw with
  | nil => exact le_refl 0
  | cons he hew _ ih =>
    obtain ⟨w', hw', h0⟩ := entryWeight_of_wf hwf he
    rw [hew] at hw'
    obtain rfl := Option.some.inj hw'
    exact add_nonneg h0 ih

theorem dloop_mono {adj : Adj} {d : String} {st stf : DState} :
    ∀ {n : ℕ}, dloop adj d n st = some stf →
      ∀ m, n ≤ m → dloop adj d m st = some stf := by
  intro n
  induction n generalizing st with
  | zero => intro h; exact Option.noConfusion h
  | succ n ih =>
    intro h m hm
    obtain ⟨m', rfl⟩ : ∃ m', m = m' + 1 := by
      cases m with
      | zero => omega
      | succ m' => exact ⟨m', rfl⟩
    have hm' : n ≤ m' := by omega
    rw [dloop] at h ⊢
    cases hpop : heapPop st.heap with
    | none =>
      rw [hpop] at h
      exact h
    | some pr =>
      obtain ⟨⟨c, u⟩, h'⟩ := pr
      rw [hpop] at h
      simp only [] at h ⊢
      by_cases hd : u = d
      · rw [if_pos hd] at h ⊢
        exact h
      · rw [if_neg hd] at h ⊢
        cases hst : dlookup st.dist u with
        | none =>
          rw [hst] at h
          rw [if_neg (by simp)] at h ⊢
          cases hrel : relaxAll c u { st with heap := h' } (adjGet adj u) with
          | none =>
            rw [hrel] at h
            exact Option.noConfusion h
          | some st' =>
            rw [hrel] at h
            exact ih h _ hm'
        | some du =>
          rw [hst] at h
          by_cases hdu : du < c
          · rw [if_pos (by simp [hdu])] at h ⊢
            exact ih h _ hm'
          · rw [if_neg (by simp [hdu])] at h ⊢
            cases hrel : relaxAll c u { st with heap := h' } (adjGet adj u) with
            | none =>
              rw [hrel] at h
              exact Option.noConfusion h
            | some st' =>
              rw [hrel] at h
              exact ih h _ hm'

theorem prevChain_ne_nil {prev : Dict String} {s v : String} {C : List String}
    (h : PrevListChain prev s v C) : C ≠ [] := by
  cases h with
  | base => exact List.noConfusion
  | step hl hc => exact List.noConfusion

theorem prevChain_head {prev : Dict String} {s v : String} {C : List String}
    (h : PrevListChain prev s v C) : C.head? = some v := by
  cases h with
  | base => rfl
  | step hl hc => rfl

theorem prevChain_getLast {prev : Dict String} {s v : String} {C : List String}
    (h : PrevListChain prev s v C) : C.getLast? = some s := by
  induction h with
  | base => rfl
  | @step v₀ p C₀ hl hc ih =>
    cases C₀ with
    | nil => exact absurd rfl (prevChain_ne_nil hc)
    | cons a C₁ =>
      rw [List.getLast?_cons_cons]
      exact ih

theorem prevChain_mem_suffix {prev : Dict String} {s x : String}
    {C : List String} (h : PrevListChain prev s x C) :
    ∀ y ∈ C, ∃ C', PrevListChain prev s y C' ∧ C'.IsSuffix C := by
  induction h with
  | base =>
    intro y hy
    rw [List.mem_singleton] at hy
    subst hy
    exact ⟨_, PrevListChain.base, List.suffix_refl _⟩
  | @step v p C₀ hl hc ih =>
    intro y hy
    rcases List.mem_cons.mp hy with rfl | hy
    · exact ⟨y :: C₀, .step hl hc, List.suffix_refl _⟩
    · obtain ⟨C', hC', hsuf⟩ := ih y hy
      exact ⟨C', hC', hsuf.trans (List.suffix_cons _ _)⟩

theorem prevChain_nodup_exists {prev : Dict String} {s x : String}
    {C : List String} (h : PrevListChain prev s x C) :
    ∃ C', PrevListChain prev s x C' ∧ C'.Nodup := by
  induction h with
  | base => exact ⟨[s], .base, List.nodup_singleton s⟩
  | @step v p C₀ hl hc ih =>
    obtain ⟨C', hC', hnd⟩ := ih
    by_cases hv : v ∈ C'
    · obtain ⟨C'', hC'', hsuf⟩ := prevChain_mem_suffix hC' v hv
      exact ⟨C'', hC'', List.Nodup.sublist hsuf.sublist hnd⟩
    · exact ⟨v :: C', .step hl hC', List.nodup_cons.mpr ⟨hv, hnd⟩⟩

theorem prevChain_mem_keys {prev : Dict String} {s x : String}
    {C : List String} (h : PrevListChain prev s x C) :
    ∀ y ∈ C, y = s ∨ y ∈ dkeys prev := by
  induction h with
  | base =>
    intro y hy
    rw [List.mem_singleton] at hy
    exact Or.inl hy
  | @step v p C₀ hl hc ih =>
    intro y hy
    rcases List.mem_cons.mp hy with rfl | hy
    · exact Or.inr (mem_dkeys_of_dlookup hl)
    · exact ih y hy

theorem prevChain_length_le {prev : Dict String} {s x : String}
    {C : List String} (h : PrevListChain prev s x C) (hnd : C.Nodup) :
    C.length ≤ (dkeys prev).length + 1 := by
  have hsub : C ⊆ s :: dkeys prev := by
    intro y hy
    rcases prevChain_mem_keys h y hy with rfl | hk
    · exact List.mem_cons_self _ _
    · exact List.mem_cons_of_mem _ hk
  have h1 : C.toFinset.card = C.length := List.toFinset_card_of_nodup hnd
  have h2 : C.toFinset ⊆ (s :: dkeys prev).toFinset := by
    intro y hy
    rw [List.mem_toFinset] at hy ⊢
    exact hsub hy
  have h3 := Finset.card_le_card h2
  have h4 := (s :: dkeys prev).toFinset_card_le
  have h5 : C.length ≤ (s :: dkeys prev).length := by
    rw [← h1]
    exact le_trans h3 h4
  simpa using h5

theorem prevChain_dinsert_of_not_mem {prev : Dict String} {s x v u : String}
    {C : List String} (h : PrevListChain prev s x C) (hv : v ∉ C) :
    PrevListChain (dinsert prev v u) s x C := by
  induction h with
  | base => exact .base
  | @step x₀ p C₀ hl hc ih =>
    rw [List.mem_cons, not_or] at hv
    refine .step ?_ (ih hv.2)
    rw [dlookup_dinsert, if_neg hv.1]
    exact hl

theorem prevChain_dinsert_transfer {prev : Dict String} {s v u : String}
    (hvC : ∃ Cv, PrevListChain (dinsert prev v u) s v Cv) :
    ∀ {x : String} {C : List String}, PrevListChain prev s x C →
      ∃ C', PrevListChain (dinsert prev v u) s x C' := by
  intro x C h
  induction h with
  | base => exact ⟨[s], .base⟩
  | @step x₀ p C₀ hl hc ih =>
    by_cases hx : x₀ = v
    · subst hx
      exact hvC
    · obtain ⟨C', hC'⟩ := ih
      refine ⟨x₀ :: C', .step ?_ hC'⟩
      rw [dlookup_dinsert, if_neg (fun hh => hx hh.symm)]
      exact hl

theorem prevChain_dinsert_of_dist {prev : Dict String} {dist : Dict ℚ}
    {s v u' : String}
    (hmono : ∀ x p, dlookup prev x = some p → ∃ dx dp,
      dlookup dist x = some dx ∧ dlookup dist p = some dp ∧ dp ≤ dx)
    {u : String} {C : List String} (hC : PrevListChain prev s u C) :
    ∀ du, dlookup dist u = some du →
      (∀ y dy, dlookup dist y = some dy → dy ≤ du → y ≠ v) →
      PrevListChain (dinsert prev v u') s u C := by
  induction hC with
  | base =>
    intro du hdu hexcl
    exact .base
  | @step x p C₀ hl hc ih =>
    intro du hdu hexcl
    obtain ⟨dx, dp, hdx, hdp, hle⟩ := hmono x p hl
    obtain rfl : dx = du := by
      rw [hdx] at hdu
      exact Option.some.inj hdu
    refine .step ?_ (ih dp hdp (fun y dy hy hle' => hexcl y dy hy (le_trans hle' hle)))
    rw [dlookup_dinsert, if_neg (fun hh => hexcl x dx hdx (le_refl _) hh.symm)]
    exact hl

theorem mem_dkeys_dinsert {β : Type} {d : Dict β} {x : String} (k : String)
    (v : β) (hx : x ∈ dkeys d) : x ∈ dkeys (dinsert d k v) := by
  rw [dkeys_dinsert]
  split
  · exact hx
  · exact List.mem_append_left _ hx

theorem self_mem_dkeys_dinsert {β : Type} (d : Dict β) (k : String) (v : β) :
    k ∈ dkeys (dinsert d k v) := by
  rw [dkeys_dinsert]
  split
  · assumption
  · exact List.mem_append_right _ (List.mem_singleton_self k)

theorem mem_dkeys_dinsert_elim {β : Type} {d : Dict β} {x k : String} {v : β}
    (hx : x ∈ dkeys (dinsert d k v)) : x = k ∨ x ∈ dkeys d := by
  rw [dkeys_dinsert] at hx
  by_cases hk : k ∈ dkeys d
  · rw [if_pos hk] at hx
    exact Or.inr hx
  · rw [if_neg hk] at hx
    rcases List.mem_append.mp hx with hx | hx
    · exact Or.inr hx
    · exact Or.inl (List.mem_singleton.mp hx)

theorem relaxOne_update_core {adj : Adj} {s : String} {S : Finset String}
    {u : String} {c : ℚ} {st : DState} (hwf : wfAdjB adj = true)
    (hinv : DRelaxInv adj s S u c st) {v : String} {attrs : AttrBag}
    (he : (v, attrs) ∈ adjGet adj u) {w : ℚ}
    (hw : entryWeight attrs = some w) (hw0 : 0 ≤ w)
    (himp : ∀ dv, dlookup st.dist v = some dv → c + w < dv) :
    DRelaxInv adj s S u c
      { dist := dinsert st.dist v (c + w),
        prev := dinsert st.prev v u,
        heap := (c + w, v) :: st.heap } := by
  have hc0 : 0 ≤ c := (hinv.hW2 u c hinv.hU).2
  have hnc0 : 0 ≤ c + w := add_nonneg hc0 hw0
  have hvu : v ≠ u := by
    intro hvu
    subst hvu
    exact absurd (himp c hinv.hU) (by linarith)
  have hvs : v ≠ s := by
    intro hvs
    subst hvs
    exact absurd (himp 0 hinv.hW5) (by linarith)
  have hwalkv : WalkFrom adj s v (c + w) := hinv.hUwalk.snoc he hw
  have hvS : v ∉ S := by
    intro hvS
    obtain ⟨dv₀, hdv₀, hmin, _⟩ := hinv.hW3 v hvS
    exact absurd (himp dv₀ hdv₀) (not_lt.mpr (hmin _ hwalkv))
  have hchainU : ∃ Cu, PrevListChain (dinsert st.prev v u) s u Cu := by
    have hexcl : ∀ y dy, dlookup st.dist y = some dy → dy ≤ c → y ≠ v := by
      intro y dy hy hle hyv
      subst hyv
      exact absurd (himp dy hy) (by linarith)
    rcases hinv.hP5 u (mem_dkeys_of_dlookup hinv.hU) with rfl | hmemu
    · exact ⟨[u], .base⟩
    · obtain ⟨Cu, hCu⟩ := hinv.hP2 u hmemu
      exact ⟨Cu, prevChain_dinsert_of_dist hinv.hP4 hCu c hinv.hU hexcl⟩
  have hchainV : ∃ Cv, PrevListChain (dinsert st.prev v u) s v Cv := by
    obtain ⟨Cu, hCu⟩ := hchainU
    refine ⟨v :: Cu, .step ?_ hCu⟩
    rw [dlookup_dinsert, if_pos rfl]
  refine ⟨?_, ?_, ?_, ?_, ?_, ?_, ?_, ?_, ?_, ?_, ?_, ?_, ?_, ?_, ?_⟩
  · -- hW1
    intro c' u' hmem
    rcases List.mem_cons.mp hmem with heq | hmem
    · obtain ⟨rfl, rfl⟩ : c' = c + w ∧ u' = v :=
        ⟨congrArg Prod.fst heq, congrArg Prod.snd heq⟩
    -- placeholder continues below
      refine ⟨hwalkv, c + w, ?_, le_refl _⟩
      simp only []
      rw [dlookup_dinsert, if_pos rfl]
    · obtain ⟨hwk, du', hdu', hle'⟩ := hinv.hW1 c' u' hmem
      refine ⟨hwk, ?_⟩
      simp only []
      rw [dlookup_dinsert]
      by_cases hv' : v = u'
      · subst hv'
        refine ⟨c + w, by rw [if_pos rfl], ?_⟩
        have := himp du' hdu'
        linarith
      · rw [if_neg hv']
        exact ⟨du', hdu', hle'⟩
  · -- hW2
    intro x dx hx
    simp only [] at hx
    rw [dlookup_dinsert] at hx
    by_cases hv' : v = x
    · rw [if_pos hv'] at hx
      obtain rfl := Option.some.inj hx
      subst hv'
      exact ⟨hwalkv, hnc0⟩
    · rw [if_neg hv'] at hx
      exact hinv.hW2 x dx hx
  · -- hW5
    simp only []
    rw [dlookup_dinsert, if_neg hvs]
    exact hinv.hW5
  · -- hW4
    intro x dx hxS hxu hx
    simp only [] at hx ⊢
    rw [dlookup_dinsert] at hx
    by_cases hv' : v = x
    · rw [if_pos hv'] at hx
      obtain rfl := Option.some.inj hx
      subst hv'
      exact List.mem_cons_self _ _
    · rw [if_neg hv'] at hx
      exact List.mem_cons_of_mem _ (hinv.hW4 x dx hxS hxu hx)
  · -- hW3
    intro u' hu'
    obtain ⟨du', hdu', hmin', hrel'⟩ := hinv.hW3 u' hu'
    have hu'v : v ≠ u' := fun hh => hvS (hh ▸ hu')
    refine ⟨du', ?_, hmin', ?_⟩
    · simp only []
      rw [dlookup_dinsert, if_neg hu'v]
      exact hdu'
    · intro e' he' w' hw'
      obtain ⟨dv₀, hdv₀, hle₀⟩ := hrel' e' he' w' hw'
      simp only []
      rw [dlookup_dinsert]
      by_cases hv' : v = e'.1
      · rw [if_pos hv']
        refine ⟨c + w, rfl, ?_⟩
        have := himp dv₀ (hv' ▸ hdv₀)
        linarith
      · rw [if_neg hv']
        exact ⟨dv₀, hdv₀, hle₀⟩
  · -- hP0
    simp only []
    rw [dlookup_dinsert, if_neg hvs]
    exact hinv.hP0
  · -- hP1
    intro v' p hp
    simp only [] at hp
    rw [dlookup_dinsert] at hp
    by_cases hv' : v = v'
    · rw [if_pos hv'] at hp
      obtain rfl := Option.some.inj hp
      subst hv'
      exact ⟨attrs, he⟩
    · rw [if_neg hv'] at hp
      exact hinv.hP1 v' p hp
  · -- hP2
    intro x hx
    simp only [] at hx ⊢
    rcases mem_dkeys_dinsert_elim hx with rfl | hx
    · exact hchainV
    · obtain ⟨C, hC⟩ := hinv.hP2 x hx
      exact prevChain_dinsert_transfer hchainV hC
  · -- hP3
    simp only []
    exact dkeys_dinsert_nodup _ _ hinv.hP3
  · -- hP4
    intro v' p hp
    simp only [] at hp ⊢
    rw [dlookup_dinsert] at hp
    by_cases hv' : v = v'
    · rw [if_pos hv'] at hp
      obtain rfl := Option.some.inj hp
      subst hv'
      refine ⟨c + w, c, ?_, ?_, by linarith⟩
      · rw [dlookup_dinsert, if_pos rfl]
      · rw [dlookup_dinsert, if_neg hvu]
        exact hinv.hU
    · rw [if_neg hv'] at hp
      obtain ⟨dv', dp, hdv', hdp, hle'⟩ := hinv.hP4 v' p hp
      by_cases hvp : v = p
      · refine ⟨dv', c + w, ?_, ?_, ?_⟩
        · rw [dlookup_dinsert, if_neg hv']
          exact hdv'
        · rw [dlookup_dinsert, if_pos hvp]
        · have := himp dp (by rw [hvp]; exact hdp)
          linarith
      · refine ⟨dv', dp, ?_, ?_, hle'⟩
        · rw [dlookup_dinsert, if_neg hv']
          exact hdv'
        · rw [dlookup_dinsert, if_neg hvp]
          exact hdp
  · -- hP5
    intro x hx
    simp only [] at hx ⊢
    rcases mem_dkeys_dinsert_elim hx with rfl | hx
    · exact Or.inr (self_mem_dkeys_dinsert _ _ _)
    · rcases hinv.hP5 x hx with rfl | hx
      · exact Or.inl rfl
      · exact Or.inr (mem_dkeys_dinsert _ _ hx)
  · -- hU
    simp only []
    rw [dlookup_dinsert, if_neg hvu]
    exact hinv.hU
  · exact hinv.hUwalk
  · exact hinv.hUmin
  · exact hinv.hUS

theorem relaxOne_pres {adj : Adj} {s : String} {S : Finset String} {u : String}
    {c : ℚ} {st : DState} (hwf : wfAdjB adj = true)
    (hinv : DRelaxInv adj s S u c st) {e : String × AttrBag}
    (he : e ∈ adjGet adj u) :
    ∃ st', relaxOne c u st e = some st' ∧ DRelaxInv adj s S u c st' ∧
      (∀ w, entryWeight e.2 = some w →
        ∃ dv, dlookup st'.dist e.1 = some dv ∧ dv ≤ c + w) ∧
      (∀ x dx, dlookup st.dist x = some dx →
        ∃ dx', dlookup st'.dist x = some dx' ∧ dx' ≤ dx) ∧
      (∀ en, en ∈ st.heap → en ∈ st'.heap) := by
  obtain ⟨v, attrs⟩ := e
  obtain ⟨w, hw, hw0⟩ := entryWeight_of_wf hwf he
  unfold relaxOne
  rw [hw]
  simp only []
  cases hdv : dlookup st.dist v with
  | none =>
    refine ⟨_, by rw [if_pos rfl], relaxOne_update_core hwf hinv he hw hw0
      (fun dv h => absurd h (by rw [hdv]; exact fun hh => Option.noConfusion hh)),
      ?_, ?_, ?_⟩
    · intro w' hw'
      obtain rfl := Option.some.inj hw'
      refine ⟨c + w, ?_, le_refl _⟩
      simp only []
      rw [dlookup_dinsert, if_pos rfl]
    · intro x dx hx
      refine ⟨dx, ?_, le_refl _⟩
      simp only []
      rw [dlookup_dinsert]
      by_cases hv' : v = x
      · subst hv'
        rw [hdv] at hx
        exact Option.noConfusion hx
      · rw [if_neg hv']
        exact hx
    · intro en hen
      exact List.mem_cons_of_mem _ hen
  | some dv =>
    by_cases hlt : c + w < dv
    · refine ⟨_, by rw [if_pos (by simp [hlt])], relaxOne_update_core hwf hinv he hw hw0
        (fun dv' h => by
          rw [hdv] at h
          obtain rfl := Option.some.inj h
          exact hlt),
        ?_, ?_, ?_⟩
      · intro w' hw'
        obtain rfl := Option.some.inj hw'
        refine ⟨c + w, ?_, le_refl _⟩
        simp only []
        rw [dlookup_dinsert, if_pos rfl]
      · intro x dx hx
        simp only []
        rw [dlookup_dinsert]
        by_cases hv' : v = x
        · subst hv'
          rw [hdv] at hx
          obtain rfl := Option.some.inj hx
          rw [if_pos rfl]
          exact ⟨c + w, rfl, le_of_lt hlt⟩
        · rw [if_neg hv']
          exact ⟨dx, hx, le_refl _⟩
      · intro en hen
        exact List.mem_cons_of_mem _ hen
    · refine ⟨st, by rw [if_neg (by simp [hlt])], hinv, ?_, ?_, ?_⟩
      · intro w' hw'
        obtain rfl := Option.some.inj hw'
        exact ⟨dv, hdv, not_lt.mp hlt⟩
      · intro x dx hx
        exact ⟨dx, hx, le_refl _⟩
      · intro en hen
        exact hen

theorem relaxAll_pres {adj : Adj} {s : String} {S : Finset String} {u : String}
    {c : ℚ} (hwf : wfAdjB adj = true) :
    ∀ (es : List (String × AttrBag)) (st : DState),
      DRelaxInv adj s S u c st → (∀ e ∈ es, e ∈ adjGet adj u) →
      ∃ st', relaxAll c u st es = some st' ∧ DRelaxInv adj s S u c st' ∧
        (∀ e ∈ es, ∀ w, entryWeight e.2 = some w →
          ∃ dv, dlookup st'.dist e.1 = some dv ∧ dv ≤ c + w) ∧
        (∀ x dx, dlookup st.dist x = some dx →
          ∃ dx', dlookup st'.dist x = some dx' ∧ dx' ≤ dx) ∧
        (∀ en, en ∈ st.heap → en ∈ st'.heap) := by
  intro es
  induction es with
  | nil =>
    intro st hinv _
    exact ⟨st, rfl, hinv, by simp, fun x dx hx => ⟨dx, hx, le_refl _⟩,
      fun en hen => hen⟩
  | cons e es' ih =>
    intro st hinv hes
    obtain ⟨st₁, h₁, hinv₁, hrel₁, hmono₁, hheap₁⟩ :=
      relaxOne_pres hwf hinv (hes e (List.mem_cons_self e es'))
    obtain ⟨st', h', hinv', hrel', hmono', hheap'⟩ :=
      ih st₁ hinv₁ (fun e' he' => hes e' (List.mem_cons_of_mem _ he'))
    refine ⟨st', ?_, hinv', ?_, ?_, ?_⟩
    · unfold relaxAll
      rw [h₁]
      exact h'
    · intro e' he' w' hw'
      rcases List.mem_cons.mp he' with rfl | he'
      · obtain ⟨dv, hdv, hle⟩ := hrel₁ w' hw'
        obtain ⟨dv', hdv', hle'⟩ := hmono' _ _ hdv
        exact ⟨dv', hdv', le_trans hle' hle⟩
      · exact hrel' e' he' w' hw'
    · intro x dx hx
      obtain ⟨dx₁, hdx₁, hle₁⟩ := hmono₁ x dx hx
      obtain ⟨dx', hdx', hle'⟩ := hmono' x dx₁ hdx₁
      exact ⟨dx', hdx', le_trans hle' hle₁⟩
    · intro en hen
      exact hheap' en (hheap₁ en hen)

theorem relaxAll_noop {adj : Adj} {u : String} {c : ℚ}
    (hwf : wfAdjB adj = true) :
    ∀ (es : List (String × AttrBag)) (st : DState),
      (∀ e ∈ es, e ∈ adjGet adj u) →
      (∀ e ∈ es, ∀ w, entryWeight e.2 = some w →
        ∃ dv, dlookup st.dist e.1 = some dv ∧ dv ≤ c + w) →
      relaxAll c u st es = some st := by
  intro es
  induction es with
  | nil => intro st _ _; rfl
  | cons e es' ih =>
    intro st hes hbnd
    obtain ⟨v, attrs⟩ := e
    obtain ⟨w, hw, hw0⟩ := entryWeight_of_wf hwf (hes _ (List.mem_cons_self _ es'))
    obtain ⟨dv, hdv, hle⟩ := hbnd _ (List.mem_cons_self _ es') w hw
    unfold relaxAll relaxOne
    rw [hw]
    simp only []
    rw [hdv]
    simp only []
    rw [if_neg (by simp; linarith)]
    exact ih st (fun e' he' => hes e' (List.mem_cons_of_mem _ he'))
      (fun e' he' => hbnd e' (List.mem_cons_of_mem _ he'))

theorem crossing_aux {adj : Adj} {s : String} {S : Finset String} {st : DState}
    (hwf : wfAdjB adj = true) (hinv : DInv adj s S st)
    {mn : ℚ × String} (hmn : heapMin st.heap = some mn) :
    ∀ {u₀ x : String} {cw : ℚ}, WalkFrom adj u₀ x cw → x ∉ S →
      ∀ du₀ A₀, dlookup st.dist u₀ = some du₀ → du₀ ≤ A₀ →
      mn.1 ≤ A₀ + cw := by
  intro u₀ x cw hw
  induction hw with
  | nil y =>
    intro hxS du₀ A₀ hdu₀ hle
    have hmem := hinv.hW4 y du₀ hxS hdu₀
    have h1 := heapMin_le hmn _ hmem
    simp only [] at h1
    linarith
  | @cons u₁ v₁ x₁ attrs₁ w₁ c₁ he hew hrest ih =>
    intro hxS du₀ A₀ hdu₀ hle
    by_cases hu₁S : u₁ ∈ S
    · obtain ⟨du₁', hdu₁', hmin', hrel'⟩ := hinv.hW3 u₁ hu₁S
      obtain rfl : du₁' = du₀ := by
        rw [hdu₀] at hdu₁'
        exact (Option.some.inj hdu₁').symm
      obtain ⟨dv, hdv, hlev⟩ := hrel' (v₁, attrs₁) he w₁ hew
      have := ih hxS dv (A₀ + w₁) hdv (by linarith)
      linarith
    · have hmem := hinv.hW4 u₁ du₀ hu₁S hdu₀
      have h1 := heapMin_le hmn _ hmem
      have h2 : 0 ≤ w₁ + c₁ := walk_cost_nonneg hwf (WalkFrom.cons he hew hrest)
      simp only [] at h1
      linarith

theorem crossing {adj : Adj} {s : String} {S : Finset String} {st : DState}
    (hwf : wfAdjB adj = true) (hinv : DInv adj s S st)
    {mn : ℚ × String} (hmn : heapMin st.heap = some mn)
    {x : String} {cw : ℚ} (hw : WalkFrom adj s x cw) (hxS : x ∉ S) :
    mn.1 ≤ cw := by
  have := crossing_aux hwf hinv hmn hw hxS 0 0 hinv.hW5 (le_refl 0)
  linarith

theorem heap_empty_complete {adj : Adj} {s : String} {S : Finset String}
    {st : DState} (hwf : wfAdjB adj = true) (hinv : DInv adj s S st)
    (hheap : st.heap = []) :
    ∀ {u₀ x : String} {cw : ℚ}, WalkFrom adj u₀ x cw →
      ∀ du₀ A₀, dlookup st.dist u₀ = some du₀ → du₀ ≤ A₀ →
      ∃ dx, dlookup st.dist x = some dx ∧ dx ≤ A₀ + cw := by
  intro u₀ x cw hw
  induction hw with
  | nil y =>
    intro du₀ A₀ h hle
    exact ⟨du₀, h, by linarith⟩
  | @cons u₁ v₁ x₁ attrs₁ w₁ c₁ he hew hrest ih =>
    intro du₀ A₀ hdu₀ hle
    by_cases hu₁S : u₁ ∈ S
    · obtain ⟨du₁', hdu₁', hmin', hrel'⟩ := hinv.hW3 u₁ hu₁S
      obtain rfl : du₁' = du₀ := by
        rw [hdu₀] at hdu₁'
        exact (Option.some.inj hdu₁').symm
      obtain ⟨dv, hdv, hlev⟩ := hrel' (v₁, attrs₁) he w₁ hew
      obtain ⟨dx, hdx, hlex⟩ := ih dv (A₀ + w₁) hdv (by linarith)
      exact ⟨dx, hdx, by linarith⟩
    · have hmem := hinv.hW4 u₁ du₀ hu₁S hdu₀
      rw [hheap] at hmem
      exact absurd hmem (List.not_mem_nil _)

theorem dinv_pop {adj : Adj} {s : String} {S : Finset String} {st : DState}
    {c : ℚ} {u : String} (hinv : DInv adj s S st)
    (hprot : ∀ x dx, x ∉ S → dlookup st.dist x = some dx → (dx, x) ≠ (c, u)) :
    DInv adj s S { st with heap := removeFirst st.heap (c, u) } := by
  refine ⟨?_, hinv.hW2, hinv.hW5, ?_, hinv.hW3, hinv.hP0, hinv.hP1, hinv.hP2,
    hinv.hP3, hinv.hP4, hinv.hP5⟩
  · intro c' u' hmem
    exact hinv.hW1 c' u' (mem_of_mem_removeFirst hmem)
  · intro x dx hxS hx
    exact mem_removeFirst_of_ne (hinv.hW4 x dx hxS hx) (hprot x dx hxS hx)

theorem dinv_pop_relaxinv {adj : Adj} {s : String} {S : Finset String}
    {st : DState} {c : ℚ} {u : String} (hinv : DInv adj s S st)
    (hmem : (c, u) ∈ st.heap)
    (hdu : dlookup st.dist u = some c)
    (hmin : ∀ cw, WalkFrom adj s u cw → c ≤ cw)
    (huS : u ∉ S) :
    DRelaxInv adj s S u c { st with heap := removeFirst st.heap (c, u) } := by
  refine ⟨?_, hinv.hW2, hinv.hW5, ?_, hinv.hW3, hinv.hP0, hinv.hP1, hinv.hP2,
    hinv.hP3, hinv.hP4, hinv.hP5, hdu, (hinv.hW1 c u hmem).1, hmin, huS⟩
  · intro c' u' hmem'
    exact hinv.hW1 c' u' (mem_of_mem_removeFirst hmem')
  · intro x dx hxS hxu hx
    exact mem_removeFirst_of_ne (hinv.hW4 x dx hxS hx)
      (fun hh => hxu (congrArg Prod.snd hh))

theorem relaxinv_settle {adj : Adj} {s : String} {S : Finset String}
    {u : String} {c : ℚ} {st' : DState}
    (hrinv : DRelaxInv adj s S u c st')
    (hrel : ∀ e ∈ adjGet adj u, ∀ w, entryWeight e.2 = some w →
      ∃ dv, dlookup st'.dist e.1 = some dv ∧ dv ≤ c + w) :
    DInv adj s (insert u S) st' := by
  refine ⟨hrinv.hW1, hrinv.hW2, hrinv.hW5, ?_, ?_, hrinv.hP0, hrinv.hP1,
    hrinv.hP2, hrinv.hP3, hrinv.hP4, hrinv.hP5⟩
  · intro x dx hxS hx
    rw [Finset.mem_insert, not_or] at hxS
    exact hrinv.hW4 x dx hxS.2 hxS.1 hx
  · intro u' hu'
    rcases Finset.mem_insert.mp hu' with rfl | hu'
    · exact ⟨c, hrinv.hU, hrinv.hUmin, hrel⟩
    · exact hrinv.hW3 u' hu'

theorem dloop_run {adj : Adj} {s d : String} (hwf : wfAdjB adj = true) :
    ∀ (k m : ℕ) (S : Finset String) (st : DState),
      ((adj.map Prod.fst).toFinset \ S).card = k → st.heap.length = m →
      DInv adj s S st →
      ∃ fuel stf, dloop adj d fuel st = some stf ∧ DPost adj s d stf := by
  intro k
  induction k using Nat.strong_induction_on with
  | _ k ihk =>
  intro m
  induction m using Nat.strong_induction_on with
  | _ m ihm =>
  intro S st hk hm hinv
  cases hmn : heapMin st.heap with
  | none =>
    have hheap : st.heap = [] := (heapMin_eq_none_iff _).mp hmn
    refine ⟨1, st, ?_, ?_⟩
    · simp [dloop, heapPop, hmn]
    · refine ⟨fun x dx hx => (hinv.hW2 x dx hx).1, hinv.hP0, hinv.hP1,
        hinv.hP2, hinv.hP3, hinv.hP5, ?_⟩
      intro cw hw
      obtain ⟨dd, hdd, hle⟩ :=
        heap_empty_complete hwf hinv hheap hw 0 0 hinv.hW5 (le_refl 0)
      exact ⟨dd, hdd, by linarith⟩
  | some mn =>
    obtain ⟨c, u⟩ := mn
    have hmemcu : (c, u) ∈ st.heap := heapMin_mem hmn
    have hpop : heapPop st.heap = some ((c, u), removeFirst st.heap (c, u)) := by
      unfold heapPop
      rw [hmn]
    obtain ⟨du, hdu, hduc⟩ := (hinv.hW1 c u hmemcu).2
    have hlen' : (removeFirst st.heap (c, u)).length < m := by
      have := length_removeFirst_of_mem hmemcu
      omega
    by_cases hud : u = d
    · subst hud
      refine ⟨1, { st with heap := removeFirst st.heap (c, u) }, ?_, ?_⟩
      · show dloop adj u (0 + 1) st = _
        rw [dloop, hpop]
        simp
      · refine ⟨fun x dx hx => (hinv.hW2 x dx hx).1, hinv.hP0, hinv.hP1,
          hinv.hP2, hinv.hP3, hinv.hP5, ?_⟩
        intro cw hw
        refine ⟨du, hdu, ?_⟩
        by_cases hdS : u ∈ S
        · obtain ⟨du', hdu', hmin', _⟩ := hinv.hW3 u hdS
          obtain rfl : du = du' := by
            rw [hdu] at hdu'
            exact Option.some.inj hdu'
          exact hmin' cw hw
        · have := crossing hwf hinv hmn hw hdS
          simp only [] at this
          linarith
    · by_cases hstale : du < c
      · have hstep : ∀ F, dloop adj d (F + 1) st =
            dloop adj d F { st with heap := removeFirst st.heap (c, u) } := by
          intro F
          rw [dloop, hpop]
          simp only []
          rw [if_neg hud, hdu]
          simp only []
          rw [if_pos (by simp [hstale])]
        have hinv' : DInv adj s S
            { st with heap := removeFirst st.heap (c, u) } := by
          refine dinv_pop hinv ?_
          intro x dx hxS hx hh
          have h2 : x = u := congrArg Prod.snd hh
          subst h2
          rw [hdu] at hx
          obtain rfl : du = dx := Option.some.inj hx
          exact absurd (congrArg Prod.fst hh) (ne_of_lt hstale)
        obtain ⟨fuel₀, stf, heq, hpost⟩ :=
          ihm _ hlen' S { st with heap := removeFirst st.heap (c, u) } hk rfl
            hinv'
        exact ⟨fuel₀ + 1, stf, by rw [hstep fuel₀]; exact heq, hpost⟩
      · have hduc' : du = c := le_antisymm hduc (not_lt.mp hstale)
        subst hduc'
        have humin : ∀ cw, WalkFrom adj s u cw → du ≤ cw := by
          by_cases huS : u ∈ S
          · obtain ⟨du', hdu', hmin', _⟩ := hinv.hW3 u huS
            obtain rfl : du = du' := by
              rw [hdu] at hdu'
              exact Option.some.inj hdu'
            exact hmin'
          · intro cw hw
            exact crossing hwf hinv hmn hw huS
        by_cases huS : u ∈ S
        · obtain ⟨du', hdu', hmin', hrel'⟩ := hinv.hW3 u huS
          obtain rfl : du = du' := by
            rw [hdu] at hdu'
            exact Option.some.inj hdu'
          have hnoop : relaxAll du u
              { st with heap := removeFirst st.heap (du, u) } (adjGet adj u) =
              some { st with heap := removeFirst st.heap (du, u) } :=
            relaxAll_noop hwf _ _ (fun e he => he) (fun e he w hw => hrel' e he w hw)
          have hstep : ∀ F, dloop adj d (F + 1) st =
              dloop adj d F { st with heap := removeFirst st.heap (du, u) } := by
            intro F
            rw [dloop, hpop]
            simp only []
            rw [if_neg hud, hdu]
            simp only []
            rw [if_neg (by simp), hnoop]
          have hinv' : DInv adj s S
              { st with heap := removeFirst st.heap (du, u) } := by
            refine dinv_pop hinv ?_
            intro x dx hxS hx hh
            have h2 : x = u := congrArg Prod.snd hh
            exact hxS (h2 ▸ huS)
          obtain ⟨fuel₀, stf, heq, hpost⟩ :=
            ihm _ hlen' S { st with heap := removeFirst st.heap (du, u) } hk rfl
              hinv'
          exact ⟨fuel₀ + 1, stf, by rw [hstep fuel₀]; exact heq, hpost⟩
        · have hrinv : DRelaxInv adj s S u du
              { st with heap := removeFirst st.heap (du, u) } :=
            dinv_pop_relaxinv hinv hmemcu hdu humin huS
          obtain ⟨st', hrelE, hrinv', hrelPost, hmono', hheapsup⟩ :=
            relaxAll_pres hwf (adjGet adj u)
              { st with heap := removeFirst st.heap (du, u) } hrinv
              (fun e he => he)
          have hinv₂ : DInv adj s (insert u S) st' :=
            relaxinv_settle hrinv' hrelPost
          have hstep : ∀ F, dloop adj d (F + 1) st = dloop adj d F st' := by
            intro F
            rw [dloop, hpop]
            simp only []
            rw [if_neg hud, hdu]
            simp only []
            rw [if_neg (by simp), hrelE]
          by_cases hcard : u ∈ (adj.map Prod.fst).toFinset
          · have hklt : (((adj.map Prod.fst).toFinset) \ insert u S).card < k := by
              rw [← hk]
              apply Finset.card_lt_card
              rw [Finset.ssubset_iff_of_subset
                (Finset.sdiff_subset_sdiff (le_refl _) (Finset.subset_insert u S))]
              refine ⟨u, Finset.mem_sdiff.mpr ⟨hcard, huS⟩, ?_⟩
              rw [Finset.mem_sdiff, not_and_or]
              exact Or.inr (fun hh => hh (Finset.mem_insert_self u S))
            obtain ⟨fuel₀, stf, heq, hpost⟩ :=
              ihk _ hklt st'.heap.length (insert u S) st' rfl rfl hinv₂
            exact ⟨fuel₀ + 1, stf, by rw [hstep fuel₀]; exact heq, hpost⟩
          · have hadjnil : adjGet adj u = [] := by
              unfold adjGet
              cases hlu : dlookup adj u with
              | none => rfl
              | some l =>
                exfalso
                exact hcard (List.mem_toFinset.mpr (mem_dkeys_of_dlookup hlu))
            have hst'eq : st' = { st with heap := removeFirst st.heap (du, u) } := by
              rw [hadjnil] at hrelE
              exact (Option.some.inj hrelE).symm
            have hkeq : ((adj.map Prod.fst).toFinset \ insert u S).card = k := by
              rw [← hk, Finset.sdiff_insert,
                Finset.erase_eq_of_not_mem
                  (fun hh => hcard (Finset.mem_sdiff.mp hh).1)]
            rw [hst'eq] at hinv₂
            obtain ⟨fuel₀, stf, heq, hpost⟩ :=
              ihm _ hlen' (insert u S)
                { st with heap := removeFirst st.heap (du, u) } hkeq rfl hinv₂
            refine ⟨fuel₀ + 1, stf, ?_, hpost⟩
            rw [hstep fuel₀, hst'eq]
            exact heq

theorem dinv_init (adj : Adj) (s : String) :
    DInv adj s ∅ { dist := [(s, 0)], prev := [], heap := [(0, s)] } := by
  refine ⟨?_, ?_, ?_, ?_, ?_, ?_, ?_, ?_, ?_, ?_, ?_⟩
  · intro c u hmem
    rw [List.mem_singleton] at hmem
    obtain rfl : (0 : ℚ) = c := congrArg Prod.fst hmem.symm
    obtain rfl : s = u := congrArg Prod.snd hmem.symm
    exact ⟨WalkFrom.nil s, 0, by simp [dlookup], le_refl 0⟩
  · intro x dx hx
    simp only [dlookup] at hx
    by_cases hname : s = x
    · rw [if_pos hname] at hx
      obtain rfl : (0 : ℚ) = dx := Option.some.inj hx
      subst hname
      exact ⟨WalkFrom.nil s, le_refl 0⟩
    · rw [if_neg hname] at hx
      exact Option.noConfusion hx
  · simp [dlookup]
  · intro x dx _ hx
    simp only [dlookup] at hx
    by_cases hname : s = x
    · rw [if_pos hname] at hx
      obtain rfl : (0 : ℚ) = dx := Option.some.inj hx
      subst hname
      exact List.mem_singleton_self _
    · rw [if_neg hname] at hx
      exact Option.noConfusion hx
  · intro u hu
    exact absurd hu (Finset.not_mem_empty u)
  · rfl
  · intro v p hp
    exact Option.noConfusion hp
  · intro v hv
    exact absurd hv (List.not_mem_nil v)
  · simp [dkeys]
  · intro v p hp
    exact Option.noConfusion hp
  · intro x hx
    simp only [dkeys, List.map_cons, List.map_nil, List.mem_singleton] at hx
    exact Or.inl hx

theorem stepBase_of_edge {adj : Adj} (hwf : wfAdjB adj = true) {p v : String}
    (hedge : ∃ attrs, (v, attrs) ∈ adjGet adj p) :
    ∃ b, stepBase adj p v = some b := by
  unfold stepBase
  obtain ⟨attrs, he⟩ := hedge
  cases hf : (adjGet adj p).find? (fun e => e.1 == v) with
  | none =>
    exfalso
    have := List.find?_eq_none.mp hf (v, attrs) he
    simp at this
  | some e₀ =>
    have hmem := List.mem_of_find?_eq_some hf
    have hmem' : (e₀.1, e₀.2) ∈ adjGet adj p := by simpa using hmem
    obtain ⟨⟨b, hb, _⟩, _⟩ := wfAdjB_spec hwf hmem'
    exact ⟨b, hb⟩

theorem physOfPath_append_single {adj : Adj} :
    ∀ (ys : List String) (p v : String) (Ty b : ℚ),
      physOfPath adj ys = some Ty → ys.getLast? = some p →
      stepBase adj p v = some b →
      physOfPath adj (ys ++ [v]) = some (Ty + b) := by
  intro ys
  induction ys with
  | nil =>
    intro p v Ty b _ hlast _
    exact Option.noConfusion hlast
  | cons y ys' ih =>
    intro p v Ty b hphys hlast hsb
    cases ys' with
    | nil =>
      obtain rfl : y = p := Option.some.inj hlast
      obtain rfl : (0 : ℚ) = Ty := Option.some.inj hphys
      show physOfPath adj [y, v] = some (0 + b)
      simp only [physOfPath]
      rw [hsb]
      show some (b + 0) = some (0 + b)
      norm_num
    | cons y₂ ys'' =>
      simp only [physOfPath] at hphys
      cases hsb1 : stepBase adj y y₂ with
      | none =>
        rw [hsb1] at hphys
        exact Option.noConfusion hphys
      | some b₁ =>
        rw [hsb1] at hphys
        cases hph' : physOfPath adj (y₂ :: ys'') with
        | none =>
          rw [hph'] at hphys
          exact Option.noConfusion hphys
        | some r =>
          rw [hph'] at hphys
          have hTy : b₁ + r = Ty := Option.some.inj hphys
          rw [List.getLast?_cons_cons] at hlast
          have hrec := ih p v r b hph' hlast hsb
          show physOfPath adj (y :: (y₂ :: ys'' ++ [v])) = some (Ty + b)
          simp only [physOfPath, Option.bind_eq_bind]
          rw [hsb1]
          simp only [Option.some_bind]
          simp only [List.cons_append] at hrec
          simp only [List.append_eq]
          rw [hrec]
          simp only [Option.some_bind]
          rw [← hTy]
          norm_num [add_assoc]

theorem isWalkPath_append_single {adj : Adj} :
    ∀ (ys : List String) (p v : String),
      IsWalkPath adj ys → ys.getLast? = some p →
      (∃ attrs, (v, attrs) ∈ adjGet adj p) →
      IsWalkPath adj (ys ++ [v]) := by
  intro ys
  induction ys with
  | nil =>
    intro p v _ hlast _
    exact Option.noConfusion hlast
  | cons y ys' ih =>
    intro p v hw hlast hedge
    cases ys' with
    | nil =>
      obtain rfl : y = p := Option.some.inj hlast
      exact ⟨hedge, trivial⟩
    | cons y₂ ys'' =>
      rw [List.getLast?_cons_cons] at hlast
      exact ⟨hw.1, ih p v hw.2 hlast hedge⟩

theorem reconstruct_run {adj : Adj} {s : String} {prev : Dict String}
    (hwf : wfAdjB adj = true)
    (hP0 : dlookup prev s = none)
    (hP1 : ∀ v p, dlookup prev v = some p → ∃ attrs, (v, attrs) ∈ adjGet adj p) :
    ∀ {x : String} {C : List String}, PrevListChain prev s x C →
      ∀ fuel, C.length ≤ fuel →
      ∀ (acc : List String) (t₀ : ℚ),
      ∃ T, reconstruct adj s prev fuel x acc t₀ =
          some (C.reverse ++ acc, t₀ + T) ∧
        physOfPath adj C.reverse = some T ∧
        IsWalkPath adj C.reverse := by
  intro x C hC
  induction hC with
  | base =>
    intro fuel hfuel acc t₀
    obtain ⟨f, rfl⟩ : ∃ f, fuel = f + 1 := by
      cases fuel with
      | zero => simp at hfuel
      | succ f => exact ⟨f, rfl⟩
    refine ⟨0, ?_, rfl, trivial⟩
    rw [reconstruct, if_pos rfl]
    simp
  | @step v p C₀ hl hc ih =>
    intro fuel hfuel acc t₀
    obtain ⟨f, rfl⟩ : ∃ f, fuel = f + 1 := by
      cases fuel with
      | zero => simp at hfuel
      | succ f => exact ⟨f, rfl⟩
    have hvs : v ≠ s := by
      intro hh
      subst hh
      rw [hP0] at hl
      exact Option.noConfusion hl
    obtain ⟨b, hsb⟩ := stepBase_of_edge hwf (hP1 v p hl)
    have hf : C₀.length ≤ f := by
      simp only [List.length_cons] at hfuel
      omega
    obtain ⟨T₀, hrec, hphys, hwalk⟩ := ih f hf (v :: acc) (t₀ + b)
    have hlastC₀ : C₀.reverse.getLast? = some p := by
      rw [List.getLast?_reverse]
      exact prevChain_head hc
    refine ⟨T₀ + b, ?_, ?_, ?_⟩
    · rw [reconstruct, if_neg hvs, hl]
      simp only []
      rw [hsb]
      simp only []
      rw [hrec]
      rw [List.reverse_cons, List.append_assoc, List.singleton_append]
      congr 1
      rw [Prod.mk.injEq]
      exact ⟨rfl, by ring⟩
    · rw [List.reverse_cons]
      exact physOfPath_append_single C₀.reverse p v T₀ b hphys hlastC₀ hsb
    · rw [List.reverse_cons]
      exact isWalkPath_append_single C₀.reverse p v hwalk hlastC₀ (hP1 v p hl)

theorem shortest_path_run {adj : Adj} {s d : String} (hwf : wfAdjB adj = true)
    (hsd : s ≠ d) (hs : s ≠ "") (hd : d ≠ "")
    (hreach : ∃ c₀, WalkFrom adj s d c₀) :
    ∃ N, ∀ fuel, N ≤ fuel →
      ∃ path phys wcost,
        shortest_path adj (some s) (some d) fuel = some (path, phys, wcost) ∧
        path.head? = some s ∧ path.getLast? = some d ∧
        IsWalkPath adj path ∧ physOfPath adj path = some phys ∧
        WalkFrom adj s d wcost ∧ ∀ c, WalkFrom adj s d c → wcost ≤ c := by
  have hrun : ∃ fuel stf, dloop adj d fuel
      { dist := [(s, 0)], prev := [], heap := [(0, s)] } = some stf ∧
      DPost adj s d stf :=
    dloop_run hwf _ _ ∅ { dist := [(s, 0)], prev := [], heap := [(0, s)] }
      rfl rfl (dinv_init adj s)
  obtain ⟨N, stf, heq, hsound, hp0, hp1, hp2, hp3, hp5, hmindd⟩ := hrun
  obtain ⟨c₀, hw₀⟩ := hreach
  obtain ⟨dd, hdd, _⟩ := hmindd c₀ hw₀
  have hdmem : d ∈ dkeys stf.prev := by
    rcases hp5 d (mem_dkeys_of_dlookup hdd) with rfl | h
    · exact absurd rfl hsd
    · exact h
  obtain ⟨C₁, hC₁⟩ := hp2 d hdmem
  obtain ⟨C, hC, hCnd⟩ := prevChain_nodup_exists hC₁
  have hlen := prevChain_length_le hC hCnd
  have hlen' : C.length ≤ stf.prev.length + 1 := by
    unfold dkeys at hlen
    rw [List.length_map] at hlen
    exact hlen
  obtain ⟨T, hrec, hphys, hwalkp⟩ :=
    reconstruct_run hwf hp0 hp1 hC (stf.prev.length + 1) hlen' [] 0
  rw [List.append_nil, zero_add] at hrec
  refine ⟨N, fun fuel hfuel => ?_⟩
  have heq' := dloop_mono heq fuel hfuel
  refine ⟨C.reverse, T, dd, ?_, ?_, ?_, hwalkp, hphys, hsound d dd hdd, ?_⟩
  · unfold shortest_path
    simp only []
    rw [if_neg (by push_neg; exact ⟨hs, hd⟩), if_neg hsd, heq']
    simp only []
    rw [hdd]
    simp only []
    rw [hrec]
  · rw [List.head?_reverse]
    exact prevChain_getLast hC
  · rw [List.getLast?_reverse]
    exact prevChain_head hC
  · intro c hw
    obtain ⟨dd', hdd', hle'⟩ := hmindd c hw
    obtain rfl : dd = dd' := by
      rw [hdd] at hdd'
      exact Option.some.inj hdd'
    exact hle'

theorem shortest_path_unreachable {adj : Adj} {s d : String}
    (hwf : wfAdjB adj = true) (hsd : s ≠ d)
    (hunreach : ∀ c, ¬ WalkFrom adj s d c) :
    ∃ N, ∀ fuel, N ≤ fuel →
      shortest_path adj (some s) (some d) fuel = some ([], 0, 0) := by
  by_cases hfalsy : s = "" ∨ d = ""
  · refine ⟨0, fun fuel _ => ?_⟩
    unfold shortest_path
    simp only []
    rw [if_pos hfalsy]
  · push_neg at hfalsy
    have hrun : ∃ fuel stf, dloop adj d fuel
        { dist := [(s, 0)], prev := [], heap := [(0, s)] } = some stf ∧
        DPost adj s d stf :=
      dloop_run hwf _ _ ∅ { dist := [(s, 0)], prev := [], heap := [(0, s)] }
        rfl rfl (dinv_init adj s)
    obtain ⟨N, stf, heq, hsound, _, _, _, _, _, _⟩ := hrun
    have hdd : dlookup stf.dist d = none := by
      cases hv : dlookup stf.dist d with
      | none => rfl
      | some dd =>
        exfalso
        exact hunreach dd (hsound d dd hv)
    refine ⟨N, fun fuel hfuel => ?_⟩
    unfold shortest_path
    simp only []
    rw [if_neg (by push_neg; exact hfalsy), if_neg hsd,
      dloop_mono heq fuel hfuel]
    simp only []
    rw [hdd]

theorem lineAdj_wf : wfAdjB lineAdj = true := by
  simp [wfAdjB, lineAdj, diffAttrs, List.all, pyFloat, edgeBase,
    difficulty_for_edge, dlookup, ROUTE_DIFFICULTY, entryWeight]
  norm_num

theorem lineAdj_closed : ∀ (u x : String) (c : ℚ), WalkFrom lineAdj u x c →
    u ∈ (["A", "B", "C", "D"] : List String) →
    x ∈ (["A", "B", "C", "D"] : List String) := by
  intro u x c hw
  induction hw with
  | nil y => exact id
  | @cons u₁ v₁ x₁ attrs₁ w₁ c₁ he hew hrest ih =>
    intro hu
    apply ih
    simp only [List.mem_cons, List.not_mem_nil, or_false] at hu
    rcases hu with rfl | rfl | rfl | rfl
    · simp only [adjGet, lineAdj, dlookup] at he
      simp at he
      rw [he.1]
      simp
    · simp only [adjGet, lineAdj, dlookup] at he
      simp at he
      rcases he with ⟨h1, _⟩ | ⟨h1, _⟩
      · rw [h1]
        simp
      · rw [h1]
        simp
    · simp only [adjGet, lineAdj, dlookup] at he
      simp at he
      rcases he with ⟨h1, _⟩ | ⟨h1, _⟩
      · rw [h1]
        simp
      · rw [h1]
        simp
    · simp only [adjGet, lineAdj, dlookup] at he
      simp at he
      rw [he.1]
      simp

/-- C5 (counterexample): the router checks `start == dest` before checking
whether the endpoints exist, so querying a route from an absent node to
itself returns the non-empty path `[start]` with zero distances — the
caller's test for emptiness reports a route even though the node is not in
the graph. -/
theorem C5_counterexample :
    shortest_path lineAdj (some "ghost") (some "ghost") 5 =
      some (["ghost"], 0, 0) ∧
    (["ghost"] : List String) ≠ [] := by
  constructor
  · unfold shortest_path
    simp only []
    rw [if_neg (by simp)]
    simp
  · simp

/-- C5 (amended): an unset (`None`) or falsy (empty-string) endpoint makes
`shortest_path` return an empty path with zero distances for every fuel
bound, and when the two endpoints differ and no walk reaches the
destination over a data-model-conformant adjacency view (nonnegative
numeric bases, nonnegative difficulties), the search terminates and
returns an empty path with zero distances.  The `start == dest` case is
excluded: it returns the non-empty `[start]` even for absent nodes. -/
theorem C5_amended :
    (∀ (adj : Adj) (fuel : ℕ) (d : Option String),
        shortest_path adj none d fuel = some ([], 0, 0)) ∧
    (∀ (adj : Adj) (fuel : ℕ) (s : Option String),
        shortest_path adj s none fuel = some ([], 0, 0)) ∧
    (∀ (adj : Adj) (fuel : ℕ) (s d : String), s = "" ∨ d = "" →
        shortest_path adj (some s) (some d) fuel = some ([], 0, 0)) ∧
    (∀ (adj : Adj) (s d : String), wfAdjB adj = true → s ≠ d →
        (∀ c, ¬ WalkFrom adj s d c) →
        ∃ N, ∀ fuel, N ≤ fuel →
          shortest_path adj (some s) (some d) fuel = some ([], 0, 0)) := by
  refine ⟨?_, ?_, ?_, ?_⟩
  · intro adj fuel d
    cases d with
    | none => rfl
    | some d₀ => rfl
  · intro adj fuel s
    cases s with
    | none => rfl
    | some s₀ => rfl
  · intro adj fuel s d h
    unfold shortest_path
    simp only []
    rw [if_pos h]
  · intro adj s d hwf hsd hunreach
    exact shortest_path_unreachable hwf hsd hunreach

/-- Witness for C5 (amended): on the spec's line graph, routing from `A`
to the absent node `Z` eventually returns the empty path with zero
distances. -/
theorem C5_amended_witness :
    ∃ N, ∀ fuel, N ≤ fuel →
      shortest_path lineAdj (some "A") (some "Z") fuel = some ([], 0, 0) :=
  C5_amended.2.2.2 lineAdj "A" "Z" lineAdj_wf (by simp)
    (fun c hw => by
      have := lineAdj_closed "A" "Z" c hw (by simp)
      simp at this)

set_option maxHeartbeats 2000000 in
theorem lineAdj_eval :
    shortest_path lineAdj (some "A") (some "D") 10 =
      some (["A", "B", "C", "D"], 30, 25) := by
  have a1 : (10 : ℚ) + 10 * 0.5 = 15 := by norm_num
  have a2 : (10 : ℚ) + 10 = 20 := by norm_num
  have a3 : (15 : ℚ) + 10 * 0.5 = 20 := by norm_num
  have a4 : (15 : ℚ) + 10 = 25 := by norm_num
  have a5 : (0 : ℚ) + 10 = 10 := by norm_num
  have a6 : ¬ ((10 : ℚ) < 0) := by norm_num
  have a7 : ¬ ((20 : ℚ) < 0) := by norm_num
  have a8 : ¬ ((20 : ℚ) < 10) := by norm_num
  have a9 : ¬ ((25 : ℚ) < 15) := by norm_num
  have a10 : ¬ ((15 : ℚ) < 15) := by norm_num
  have a11 : ¬ ((10 : ℚ) < 10) := by norm_num
  have a12 : ¬ ((25 : ℚ) < 25) := by norm_num
  have a13 : (0 : ℚ) + 10 * 1 = 10 := by norm_num
  have a14 : (10 : ℚ) + 10 * 1 = 20 := by norm_num
  have a15 : (15 : ℚ) + 10 * 1 = 25 := by norm_num
  have a16 : (20 : ℚ) + 10 = 30 := by norm_num
  simp [shortest_path, dloop, heapPop, heapMin, removeFirst, entryLe,
    relaxAll, relaxOne, adjGet, entryWeight, edgeBase, difficulty_for_edge,
    pyFloat, dlookup, dinsert, lineAdj, diffAttrs, ROUTE_DIFFICULTY,
    reconstruct, stepBase, dkeys, a1, a2, a3, a4, a5, a6, a7, a8, a9, a10,
    a11, a12, a13, a14, a15, a16]

theorem lineAdj_walk : WalkFrom lineAdj "A" "D" 25 := by
  have f1 : entryWeight [("approx_distance_km", Val.num 10)] = some 10 := by
    simp [entryWeight, edgeBase, difficulty_for_edge, pyFloat, dlookup,
      ROUTE_DIFFICULTY]
  have f2 : entryWeight (diffAttrs 10 0.5) = some 5 := by
    simp [entryWeight, edgeBase, difficulty_for_edge, pyFloat, dlookup,
      diffAttrs]
    norm_num
  have w3 : WalkFrom lineAdj "C" "D" (10 + 0) :=
    WalkFrom.cons (by simp [adjGet, lineAdj, dlookup]) f1 (WalkFrom.nil "D")
  have w2 : WalkFrom lineAdj "B" "D" (5 + (10 + 0)) :=
    WalkFrom.cons (by simp [adjGet, lineAdj, dlookup, diffAttrs]) f2 w3
  have hw : WalkFrom lineAdj "A" "D" (10 + (5 + (10 + 0))) :=
    WalkFrom.cons (by simp [adjGet, lineAdj, dlookup]) f1 w2
  have harith : (10 : ℚ) + (5 + (10 + 0)) = 25 := by norm_num
  rw [harith] at hw
  exact hw

set_option maxHeartbeats 2000000 in
theorem negAdj_eval :
    shortest_path negAdj (some "s") (some "d") 10 =
      some (["s", "d"], 10, 10) := by
  have b1 : (0 : ℚ) + 10 * 1 = 10 := by norm_num
  have b2 : (0 : ℚ) + 100 * 1 = 100 := by norm_num
  have b3 : ¬ ((0 : ℚ) < 0) := by norm_num
  have b4 : ¬ ((100 : ℚ) < 10) := by norm_num
  have b5 : ¬ ((100 : ℚ) = 10) := by norm_num
  have b6 : (0 : ℚ) + 10 = 10 := by norm_num
  simp [shortest_path, dloop, heapPop, heapMin, removeFirst, entryLe,
    relaxAll, relaxOne, adjGet, entryWeight, edgeBase, difficulty_for_edge,
    pyFloat, dlookup, dinsert, negAdj, diffAttrs, ROUTE_DIFFICULTY,
    reconstruct, stepBase, dkeys, b1, b2, b3, b4, b5, b6]

theorem negAdj_walk : WalkFrom negAdj "s" "d" (-99) := by
  have e1 : entryWeight [("approx_distance_km", Val.num 100)] = some 100 := by
    simp [entryWeight, edgeBase, difficulty_for_edge, pyFloat, dlookup,
      ROUTE_DIFFICULTY]
  have e2 : entryWeight (diffAttrs 100 (-2)) = some (-200) := by
    simp [entryWeight, edgeBase, difficulty_for_edge, pyFloat, dlookup,
      diffAttrs]
    norm_num
  have e3 : entryWeight [("approx_distance_km", Val.num 1)] = some 1 := by
    simp [entryWeight, edgeBase, difficulty_for_edge, pyFloat, dlookup,
      ROUTE_DIFFICULTY]
  have w3 : WalkFrom negAdj "b" "d" (1 + 0) :=
    WalkFrom.cons (by simp [adjGet, negAdj, dlookup]) e3 (WalkFrom.nil "d")
  have w2 : WalkFrom negAdj "a" "d" (-200 + (1 + 0)) :=
    WalkFrom.cons (by simp [adjGet, negAdj, dlookup, diffAttrs]) e2 w3
  have hw : WalkFrom negAdj "s" "d" (100 + (-200 + (1 + 0))) :=
    WalkFrom.cons (by simp [adjGet, negAdj, dlookup]) e1 w2
  have harith : (100 : ℚ) + (-200 + (1 + 0)) = -99 := by norm_num
  rw [harith] at hw
  exact hw

/-- C1 (counterexample): with a negative `difficulty_factor` (which the
spec's data model does not forbid — it only constrains distances), the
weighted cost `shortest_path` reports is not minimal over all paths: on
`negAdj` the search returns the path `s → d` with weighted cost 10, yet
the walk `s → a → b → d` costs 100 − 200 + 1 = −99 < 10. -/
theorem C1_counterexample :
    shortest_path negAdj (some "s") (some "d") 10 =
      some (["s", "d"], 10, 10) ∧
    WalkFrom negAdj "s" "d" (-99) ∧ ¬ ((10 : ℚ) ≤ -99) :=
  ⟨negAdj_eval, negAdj_walk, by norm_num⟩

/-- C1 (amended): over a data-model-conformant adjacency view (nonnegative
numeric base distances, nonnegative resolved difficulties — section 3 and
section 4.2 of the spec), for distinct non-empty-named endpoints with the
destination reachable, `shortest_path` terminates (for every
sufficiently large fuel bound) and returns a walk path from start to
destination inclusive, reports its unweighted physical distance (the sum
of first-matching base distances along the returned path) separately, and
reports a weighted cost that is realized by a walk and minimal over all
walks from start to destination.  On the spec's 4-node line graph A–B–C–D
with 10 km edges and `difficulty_factor = 0.5` on B–C, it returns the
path A,B,C,D with physical distance 30 and weighted cost 25. -/
theorem C1_amended :
    (∀ (adj : Adj) (s d : String), wfAdjB adj = true → s ≠ d → s ≠ "" →
      d ≠ "" → (∃ c₀, WalkFrom adj s d c₀) →
      ∃ N, ∀ fuel, N ≤ fuel →
        ∃ path phys wcost,
          shortest_path adj (some s) (some d) fuel = some (path, phys, wcost) ∧
          path.head? = some s ∧ path.getLast? = some d ∧
          IsWalkPath adj path ∧ physOfPath adj path = some phys ∧
          WalkFrom adj s d wcost ∧ ∀ c, WalkFrom adj s d c → wcost ≤ c) ∧
    shortest_path lineAdj (some "A") (some "D") 10 =
      some (["A", "B", "C", "D"], 30, 25) :=
  ⟨fun adj s d hwf hsd hs hd hreach =>
    shortest_path_run hwf hsd hs hd hreach, lineAdj_eval⟩

/-- Witness for C1 (amended): the general correctness statement applied to
the spec's line graph from `A` to `D`, with every hypothesis discharged
concretely (wellformedness by evaluation, reachability by the explicit
25-cost walk). -/
theorem C1_amended_witness :
    ∃ N, ∀ fuel, N ≤ fuel →
      ∃ path phys wcost,
        shortest_path lineAdj (some "A") (some "D") fuel =
          some (path, phys, wcost) ∧
        path.head? = some "A" ∧ path.getLast? = some "D" ∧
        IsWalkPath lineAdj path ∧ physOfPath lineAdj path = some phys ∧
        WalkFrom lineAdj "A" "D" wcost ∧
        ∀ c, WalkFrom lineAdj "A" "D" c → wcost ≤ c :=
  C1_amended.1 lineAdj "A" "D" lineAdj_wf (by simp) (by simp) (by simp)
    ⟨25, lineAdj_walk⟩

end Midgard
